import Mathlib

/-!
Verification of `templates/themes/manage.py`, the theme-sync tool of this
repository.  The script regenerates per-theme directories from a shared app
file (`_shared/streamlit_app.py`), per-theme TOML configs (`_configs/*.toml`)
and templates (`_templates/*.tmpl`), and checks the generated files for drift.

Strings are modelled as `List Char` (`Str`).  The relevant file-system state
is modelled explicitly: `World` holds the input side (configs, shared app,
templates, shared fonts) and `ThemeDir` holds one generated theme directory
(text files and copied font files).  Python functions are translated one by
one; fallible file reads become `Option`.  Recursions that are not structural
in Python (`str.replace` scanning, the font-reference scan) are implemented
with a fuel argument equal to the string length, which is always sufficient
because every step consumes at least one character; fuel-stability lemmas are
proved below.
-/

set_option maxHeartbeats 1000000
set_option maxRecDepth 100000

abbrev Str := List Char

def nlc : Char := '\n'

/-- Association-list file store lookup (first match wins, like a directory). -/
def lookupFile {α : Type} : List (Str × α) → Str → Option α
  | [], _ => none
  | (q, c) :: rest, p => if q = p then some c else lookupFile rest p

/-- Association-list file store write (replace existing entry or append). -/
def writeFile {α : Type} : List (Str × α) → Str → α → List (Str × α)
  | [], p, c => [(p, c)]
  | (q, d) :: rest, p, c =>
    if q = p then (p, c) :: rest else (q, d) :: writeFile rest p c

/-- `pat` occurs in `s` starting at index `i`. -/
def occursAt (pat s : Str) (i : Nat) : Prop := pat <+: s.drop i

/-- Index of the first occurrence of `pat` in `s` (Python `str.index` /
`str.find`, and the search underlying `in`). -/
def findSub (pat : Str) : Str → Option Nat
  | [] => if pat = [] then some 0 else none
  | c :: rest =>
    if pat.isPrefixOf (c :: rest) then some 0
    else (findSub pat rest).map (fun n => n + 1)

/-- Python `pat in s` (substring containment). -/
def occursB (pat : Str) : Str → Bool
  | [] => pat.isEmpty
  | c :: rest => pat.isPrefixOf (c :: rest) || occursB pat rest

/-- Fuel-driven implementation of Python `str.replace` for a nonempty
pattern: scan left to right, replace each nonoverlapping occurrence. -/
def replaceAllF : Nat → Str → Str → Str → Str
  | 0, _, _, s => s
  | _ + 1, _, _, [] => []
  | fuel + 1, pat, rep, c :: rest =>
    if pat ≠ [] ∧ pat.isPrefixOf (c :: rest) then
      rep ++ replaceAllF fuel pat rep (rest.drop (pat.length - 1))
    else
      c :: replaceAllF fuel pat rep rest

/-- Python `s.replace(pat, rep)` (all call sites use a nonempty `pat`). -/
def replaceAll (pat rep s : Str) : Str := replaceAllF s.length pat rep s

/-- Python `s.split(sep)` for a one-character separator. -/
def splitOnChar (sep : Char) : Str → List Str
  | [] => [[]]
  | c :: rest =>
    if c = sep then [] :: splitOnChar sep rest
    else
      match splitOnChar sep rest with
      | [] => [[c]]
      | l :: ls => (c :: l) :: ls

/-- Python `s.split("\n")`. -/
def splitNl (s : Str) : List Str := splitOnChar nlc s

/-- Python `sep.join(parts)` for a one-character separator. -/
def joinChar (sep : Char) : List Str → Str
  | [] => []
  | [l] => l
  | l :: ls => l ++ sep :: joinChar sep ls

/-- Python `"\n".join(parts)`. -/
def joinNl (ls : List Str) : Str := joinChar nlc ls

/-- Whitespace characters recognised by Python `str.strip` / `\s` in `re`
(ASCII range; all data handled by the script is ASCII-spaced). -/
def isPySpaceC (c : Char) : Bool :=
  c = ' ' || c = '\t' || c = '\n' || c = '\r' || c = '\x0b' || c = '\x0c'

/-- Python `s.rstrip()`. -/
def pyRstrip (s : Str) : Str := (s.reverse.dropWhile isPySpaceC).reverse

/-- Python `s.strip()`. -/
def pyStrip (s : Str) : Str :=
  ((s.dropWhile isPySpaceC).reverse.dropWhile isPySpaceC).reverse

/-- Python `s.lower()` (ASCII). -/
def pyLower (s : Str) : Str := s.map Char.toLower

/-- Python `w.capitalize()` (ASCII): first character upper-cased, the rest
lower-cased. -/
def pyCapitalize : Str → Str
  | [] => []
  | c :: cs => c.toUpper :: cs.map Char.toLower

/-- Index of the last `.` in a file name (Python `name.rfind('.')`). -/
def rfindDot (s : Str) : Option Nat :=
  match s.reverse.findIdx? (fun c => c = '.') with
  | some j => some (s.length - 1 - j)
  | none => none

/-- Python `pathlib.PurePath.stem`: the file name without its final suffix;
the suffix is only recognised when the last dot is neither the first nor the
last character. -/
def pyStem (name : Str) : Str :=
  match rfindDot name with
  | some i => if 0 < i ∧ i + 1 < name.length then name.take i else name
  | none => name

def tomlExt : Str := ".toml".data

/-- `fnmatch` semantics of the glob pattern `*.toml`: any name ending in
`.toml`. -/
def matchesTomlGlob (name : Str) : Bool := tomlExt.isSuffixOf name

def githubSlug : Str := "github".data

def githubTitle : Str := "GitHub".data

/-- `slug_to_title` from manage.py: the single-entry `TITLE_OVERRIDES`
dictionary maps `"github"` to `"GitHub"`; otherwise the slug is split on
hyphens, each word capitalized, and the words joined by single spaces. -/
def slug_to_title (slug : Str) : Str :=
  if slug = githubSlug then githubTitle
  else joinChar ' ' ((splitOnChar '-' slug).map pyCapitalize)

structure Theme where
  slug : Str
  title : Str
deriving DecidableEq

/-- The theme dictionary built for one config file name. -/
def mkTheme (name : Str) : Theme :=
  { slug := pyStem name, title := slug_to_title (pyStem name) }

/-- Python string comparison (code-point lexicographic); for paths inside one
directory, `sorted(...)` on `Path`s compares exactly the file names. -/
def strLeB (a b : Str) : Bool := decide (a ≤ b)

/-- `discover_themes` from manage.py: one theme per `_configs/*.toml` file,
in sorted path order, slug = stem, title = `slug_to_title` of the stem.
`configNames` is the directory listing of `_configs/`. -/
def discover_themes (configNames : List Str) : List Theme :=
  (((configNames.filter matchesTomlGlob).mergeSort strLeB)).map mkTheme

def isQuoteC (c : Char) : Bool := c = '"' || c = '\''

def dotTtf : Str := ".ttf".data

def dotOtf : Str := ".otf".data

def dotWoff : Str := ".woff".data

def dotWoff2 : Str := ".woff2".data

/-- The capture group `[^"']+\.(?:ttf|otf|woff2?)` matched against the full
quote-free span: it succeeds exactly when the span ends in one of the four
extensions with a nonempty base name before the dot. -/
def fontExtOk (content : Str) : Bool :=
  (dotTtf.isSuffixOf content && decide (5 ≤ content.length)) ||
  (dotOtf.isSuffixOf content && decide (5 ≤ content.length)) ||
  (dotWoff.isSuffixOf content && decide (6 ≤ content.length)) ||
  (dotWoff2.isSuffixOf content && decide (7 ≤ content.length))

def dropLit (lit s : Str) : Option Str :=
  if lit.isPrefixOf s then some (s.drop lit.length) else none

def urlLit : Str := "url".data

def appStaticLit : Str := "app/static/".data

/-- One attempted match of the font regex
`url\s*=\s*["']app/static/([^"']+\.(?:ttf|otf|woff2?))["']` at the start of
`s`; on success returns the capture and the remainder after the match. -/
def matchFontAt (s : Str) : Option (Str × Str) :=
  match dropLit urlLit s with
  | none => none
  | some t1 =>
    match t1.dropWhile isPySpaceC with
    | [] => none
    | c :: t3 =>
      if c = '=' then
        match t3.dropWhile isPySpaceC with
        | [] => none
        | q :: t5 =>
          if isQuoteC q then
            match dropLit appStaticLit t5 with
            | none => none
            | some t6 =>
              match t6.dropWhile (fun ch => !isQuoteC ch) with
              | [] => none
              | q2 :: t7 =>
                if isQuoteC q2 && fontExtOk (t6.takeWhile (fun ch => !isQuoteC ch)) then
                  some (t6.takeWhile (fun ch => !isQuoteC ch), t7)
                else none
          else none
      else none

/-- Fuel-driven `re.findall` scan: try a match at each position, emit the
capture and continue after the match, else advance one character. -/
def scanFontsF : Nat → Str → List Str
  | 0, _ => []
  | _ + 1, [] => []
  | fuel + 1, c :: rest =>
    match matchFontAt (c :: rest) with
    | some (cap, after) => cap :: scanFontsF fuel after
    | none => scanFontsF fuel rest

/-- `discover_fonts` from manage.py: all font file names referenced by
`url = "app/static/<name>"` entries in the config text. -/
def discover_fonts (configText : Str) : List Str :=
  scanFontsF configText.length configText

def doubleOpen : Str := "\x7b\x7b".data

def doubleClose : Str := "\x7d\x7d".data

/-- The `{{key}}` placeholder for a template key. -/
def placeholderOf (key : Str) : Str := doubleOpen ++ key ++ doubleClose

/-- `expected_from_template` from manage.py: successive `str.replace` of each
placeholder, in mapping insertion order. -/
def expected_from_template (tmpl : Str) (repl : List (Str × Str)) : Str :=
  repl.foldl (fun text kv => replaceAll (placeholderOf kv.1) kv.2 text) tmpl

def managedHeaderPy : Str :=
  "# DO NOT EDIT — managed by manage.py, edit _shared/streamlit_app.py instead\n".data

def managedHeaderTomlTemplate : Str :=
  "# DO NOT EDIT — managed by manage.py, edit _configs/{slug}.toml instead\n".data

def slugBrace : Str := "\x7bslug\x7d".data

/-- `expected_config` from manage.py, given the config source text that
`(CONFIGS / f"{slug}.toml").read_text()` returns. -/
def expected_config_of (slug src : Str) : Str :=
  replaceAll slugBrace slug managedHeaderTomlTemplate ++ src

def titleKey : Str := "title".data

def slugKey : Str := "slug".data

def identifierKey : Str := "identifier".data

def titlePh : Str := placeholderOf titleKey

def tripleQuote : Str := "\"\"\"".data

/-- Modelled from the Python standard library (`ast.parse`,
`ast.get_docstring`, `end_lineno`), which is not part of this repository: the
1-indexed last line of the module docstring, for module sources whose first
statement, when present, is a plain triple-double-quoted string literal
starting at line 1 column 0 — the only docstring shape in this repository.
Returns `none` when the first line does not open such a literal. -/
def docstringEnd (lines : List Str) : Option Nat :=
  match lines with
  | [] => none
  | l0 :: rest =>
    if tripleQuote.isPrefixOf l0 then
      if occursB tripleQuote (l0.drop 3) then some 1
      else
        match rest.findIdx? (occursB tripleQuote) with
        | some j => some (j + 2)
        | none => none
    else none

/-- `expected_app` from manage.py, given the shared `_shared/streamlit_app.py`
source text: replace `{{title}}` (giving `body`), then insert the managed
header after the module docstring of `body` (or prepend it when there is
none); insertion splits `body` into lines and re-joins them around the
header. -/
def expected_app (source title : Str) : Str :=
  match docstringEnd (splitNl (replaceAll titlePh title source)) with
  | some k =>
    joinNl ((splitNl (replaceAll titlePh title source)).take k) ++ nlc ::
      (managedHeaderPy ++ joinNl ((splitNl (replaceAll titlePh title source)).drop k))
  | none => managedHeaderPy ++ replaceAll titlePh title source

/-- The input side of the file system: `_configs/` listing with contents,
the shared app source, the two `.tmpl` template texts, and the shared font
files (name, bytes). -/
structure World where
  configs : List (Str × Str)
  sharedApp : Str
  pyprojectTmpl : Str
  snowflakeTmpl : Str
  sharedFonts : List (Str × List Nat)

/-- One generated theme directory: text files by relative path, and font
files copied into `static/` (name, bytes). -/
structure ThemeDir where
  texts : List (Str × Str)
  fonts : List (Str × List Nat)
deriving DecidableEq

def cfgRelPath : Str := ".streamlit/config.toml".data

def appRelPath : Str := "streamlit_app.py".data

def pyprojRelPath : Str := "pyproject.toml".data

def snowRelPath : Str := "snowflake.yml".data

/-- Python `slug.replace("-", "_")`. -/
def identifierOf (slug : Str) : Str := replaceAll ['-'] ['_'] slug

/-- The replacement mapping `{"slug": slug, "title": title}`. -/
def replacements2 (t : Theme) : List (Str × Str) :=
  [(slugKey, t.slug), (titleKey, t.title)]

/-- The replacement mapping
`{"slug": slug, "title": title, "identifier": identifier}`. -/
def replacements3 (t : Theme) : List (Str × Str) :=
  [(slugKey, t.slug), (titleKey, t.title), (identifierKey, identifierOf t.slug)]

def warnMsgOf (slug fname : Str) : Str :=
  "  Warning: font ".data ++ fname ++ " referenced in _configs/".data ++ slug ++
    ".toml not found in _shared/fonts/".data

/-- The font-copy loop at the end of `sync_theme`: for each referenced name,
copy the shared font when it exists, otherwise record the warning printed to
stderr and continue. -/
def copyFonts (w : World) (slug : Str) : List Str → ThemeDir × List Str → ThemeDir × List Str
  | [], acc => acc
  | f :: fs, acc =>
    match lookupFile w.sharedFonts f with
    | none => copyFonts w slug fs (acc.1, acc.2 ++ [warnMsgOf slug f])
    | some bytes =>
      copyFonts w slug fs ({ texts := acc.1.texts, fonts := writeFile acc.1.fonts f bytes }, acc.2)

/-- `sync_theme` from manage.py over one theme directory `d`.  The only
fallible step is reading `_configs/{slug}.toml` (done first inside
`expected_config`, and again for the font scan; the world is unchanged in
between, so one lookup models both).  Returns the updated directory and the
list of warnings printed. -/
def sync_theme (w : World) (t : Theme) (d : ThemeDir) : Option (ThemeDir × List Str) :=
  match lookupFile w.configs (t.slug ++ tomlExt) with
  | none => none
  | some cfgsrc =>
    let d1 : ThemeDir :=
      { texts := writeFile d.texts cfgRelPath (expected_config_of t.slug cfgsrc),
        fonts := d.fonts }
    let d2 : ThemeDir :=
      { texts := writeFile d1.texts appRelPath (expected_app w.sharedApp t.title),
        fonts := d1.fonts }
    let d3 : ThemeDir :=
      { texts := writeFile d2.texts pyprojRelPath
          (expected_from_template w.pyprojectTmpl (replacements2 t)),
        fonts := d2.fonts }
    let d4 : ThemeDir :=
      { texts := writeFile d3.texts snowRelPath
          (expected_from_template w.snowflakeTmpl (replacements3 t)),
        fonts := d3.fonts }
    some (copyFonts w t.slug (discover_fonts cfgsrc) (d4, []))

def slashCfg : Str := "/.streamlit/config.toml".data

def slashApp : Str := "/streamlit_app.py".data

def slashPyproj : Str := "/pyproject.toml".data

def slashSnow : Str := "/snowflake.yml".data

def slashStatic : Str := "/static/".data

/-- One file check in `cmd_check`: record the report path under `missing`
when the target does not exist, under `drifted` when its content differs from
the expected content. -/
def checkFile (actual : Option Str) (expected : Str) (path : Str) : List Str × List Str :=
  match actual with
  | none => ([path], [])
  | some c => if c = expected then ([], []) else ([], [path])

/-- The font checks of `cmd_check` for one theme: a referenced font missing
from `static/` is `missing`; one that differs byte-for-byte from an existing
shared font is `drifted`. -/
def checkFonts (w : World) (d : ThemeDir) (slug : Str) : List Str → List Str × List Str
  | [] => ([], [])
  | f :: fs =>
    let rest := checkFonts w d slug fs
    match lookupFile d.fonts f with
    | none => ((slug ++ slashStatic ++ f) :: rest.1, rest.2)
    | some db =>
      match lookupFile w.sharedFonts f with
      | some sb => if sb = db then rest else (rest.1, (slug ++ slashStatic ++ f) :: rest.2)
      | none => rest

/-- The body of `cmd_check`'s loop for one theme: the four generated files
then the fonts, contributing to the `missing` and `drifted` lists. -/
def check_theme (w : World) (d : ThemeDir) (t : Theme) : Option (List Str × List Str) :=
  match lookupFile w.configs (t.slug ++ tomlExt) with
  | none => none
  | some cfgsrc =>
    let r1 := checkFile (lookupFile d.texts cfgRelPath)
      (expected_config_of t.slug cfgsrc) (t.slug ++ slashCfg)
    let r2 := checkFile (lookupFile d.texts appRelPath)
      (expected_app w.sharedApp t.title) (t.slug ++ slashApp)
    let r3 := checkFile (lookupFile d.texts pyprojRelPath)
      (expected_from_template w.pyprojectTmpl (replacements2 t)) (t.slug ++ slashPyproj)
    let r4 := checkFile (lookupFile d.texts snowRelPath)
      (expected_from_template w.snowflakeTmpl (replacements3 t)) (t.slug ++ slashSnow)
    let rf := checkFonts w d t.slug (discover_fonts cfgsrc)
    some (r1.1 ++ r2.1 ++ r3.1 ++ r4.1 ++ rf.1, r1.2 ++ r2.2 ++ r3.2 ++ r4.2 ++ rf.2)

/-- The loop of `cmd_check` over all discovered themes, accumulating the
`missing` and `drifted` lists in order. -/
def check_all (w : World) (dirs : Str → ThemeDir) : List Theme → Option (List Str × List Str)
  | [] => some ([], [])
  | t :: ts =>
    match check_theme w (dirs t.slug) t with
    | none => none
    | some r =>
      match check_all w dirs ts with
      | none => none
      | some rs => some (r.1 ++ rs.1, r.2 ++ rs.2)

/-- `cmd_check` from manage.py; `dirs` maps a slug to the on-disk theme
directory (a directory with no files models an absent directory). -/
def cmd_check (w : World) (dirs : Str → ThemeDir) : Option (List Str × List Str) :=
  check_all w dirs (discover_themes (w.configs.map Prod.fst))

/-- `sys.exit(1)` happens exactly when a missing or drifted file was found. -/
def cmd_check_exitOne (w : World) (dirs : Str → ThemeDir) : Option Bool :=
  (cmd_check w dirs).map (fun r => !(r.1.isEmpty && r.2.isEmpty))

/-- The scaffold text written by `cmd_new` for a new config. -/
def scaffoldOf (name : Str) : Str :=
  "[server]\nenableStaticServing = true\n\n# ".data ++ name ++
    " theme\n[theme]\nbase = \"dark\"\n".data

structure NewResult where
  exitOne : Bool
  configs : List (Str × Str)
deriving DecidableEq

/-- `cmd_new` from manage.py: refuse (exit 1) when `_configs/<name>.toml`
already exists, otherwise write the scaffold there. -/
def cmd_new (cfgs : List (Str × Str)) (name : Str) : NewResult :=
  if (lookupFile cfgs (name ++ tomlExt)).isSome then { exitOne := true, configs := cfgs }
  else { exitOne := false, configs := writeFile cfgs (name ++ tomlExt) (scaffoldOf name) }

def gitattrStart : Str := "# BEGIN managed by manage.py".data

def gitattrEnd : Str := "# END managed by manage.py".data

def linguistCfg : Str := "*/.streamlit/config.toml linguist-generated".data

def linguistApp : Str := "*/streamlit_app.py linguist-generated".data

def linguistPyproj : Str := "*/pyproject.toml linguist-generated".data

def linguistSnow : Str := "*/snowflake.yml linguist-generated".data

def linguistTtf : Str := "*/static/*.ttf linguist-generated".data

/-- The managed `.gitattributes` section built by `update_gitattributes`. -/
def newSection : Str :=
  joinNl [gitattrStart, linguistCfg, linguistApp, linguistPyproj, linguistSnow,
    linguistTtf, gitattrEnd]

def nlStr : Str := [nlc]

/-- `update_gitattributes` from manage.py as a content transformation:
input `none` models an absent `.gitattributes`; output `none` models the
uncaught `ValueError` of `content.index(GITATTR_END)` when the BEGIN marker
occurs but the END marker does not. -/
def update_gitattributes (prior : Option Str) : Option Str :=
  match prior with
  | none => some (newSection ++ nlStr)
  | some content =>
    match findSub gitattrStart content with
    | some s =>
      match findSub gitattrEnd content with
      | some e =>
        some (content.take s ++ newSection ++ content.drop (e + gitattrEnd.length))
      | none => none
    | none => some (pyRstrip content ++ nlStr ++ nlStr ++ newSection ++ nlStr)

/-- Running `update_gitattributes` and then running it again on the written
content. -/
def updateTwice (prior : Option Str) : Option Str :=
  match update_gitattributes prior with
  | none => none
  | some c => update_gitattributes (some c)

/-- Python `name.startswith("_")`. -/
def isUnderscoreName (d : Str) : Bool :=
  match d with
  | c :: _ => c = '_'
  | [] => false

/-- The orphan list computed by `cmd_sync`: sorted root directory names that
neither start with `_` nor match a discovered theme slug.  `rootDirNames` is
the listing of directories in the script's root. -/
def sync_orphans (rootDirNames configNames : List Str) : List Str :=
  (rootDirNames.mergeSort strLeB).filter
    (fun d => !isUnderscoreName d &&
      !(decide (d ∈ (discover_themes configNames).map Theme.slug)))

def yLit : Str := "y".data

/-- The directories `cmd_sync` removes, given the raw interactive answer:
everything in the orphan list when `answer.strip().lower() == "y"`, nothing
otherwise. -/
def sync_removed (answer : Str) (rootDirNames configNames : List Str) : List Str :=
  if pyLower (pyStrip answer) = yLit then sync_orphans rootDirNames configNames else []

def sharedDirName : Str := "_shared".data

def configsDirName : Str := "_configs".data

def templatesDirName : Str := "_templates".data

/-- The claim C8 precondition, read as: at most one line equals each marker. -/
def atMostOneManagedSection (s : Str) : Prop :=
  (splitNl s).countP (fun l => decide (l = gitattrStart)) ≤ 1 ∧
  (splitNl s).countP (fun l => decide (l = gitattrEnd)) ≤ 1

def serverSectionLit : Str := "[server]\nenableStaticServing = true".data

def themeSectionLit : Str := "[theme]\nbase = \"dark\"".data

/-- Declaratively, what makes `cmd_check` flag a theme (given its config
source text): one of the four generated files missing or different from its
expected content, or a referenced font missing from `static/` or differing
byte-for-byte from an existing shared font. -/
def ThemeBad (w : World) (d : ThemeDir) (t : Theme) (cfgsrc : Str) : Prop :=
  lookupFile d.texts cfgRelPath ≠ some (expected_config_of t.slug cfgsrc) ∨
  lookupFile d.texts appRelPath ≠ some (expected_app w.sharedApp t.title) ∨
  lookupFile d.texts pyprojRelPath ≠ some (expected_from_template w.pyprojectTmpl (replacements2 t)) ∨
  lookupFile d.texts snowRelPath ≠ some (expected_from_template w.snowflakeTmpl (replacements3 t)) ∨
  ∃ f ∈ discover_fonts cfgsrc,
    lookupFile d.fonts f = none ∨
    ∃ sb db, lookupFile w.sharedFonts f = some sb ∧ lookupFile d.fonts f = some db ∧ sb ≠ db

/-- Position of the END marker inside `newSection`. -/
def endPosN : Nat := newSection.length - gitattrEnd.length

/-- Well-formed prior state for `.gitattributes` maintenance: the file is
absent, or its content has no occurrence of either marker string, or it
decomposes around one section whose shown BEGIN occurrence is the first
BEGIN occurrence and whose shown END occurrence is the first END
occurrence. -/
def GAWellFormed (prior : Option Str) : Prop :=
  prior = none ∨
  ∃ content, prior = some content ∧
    ((findSub gitattrStart content = none ∧ findSub gitattrEnd content = none) ∨
     ∃ pre mid post,
       content = pre ++ gitattrStart ++ mid ++ gitattrEnd ++ post ∧
       (∀ i, i < pre.length → ¬ occursAt gitattrStart content i) ∧
       (∀ i, i < pre.length + gitattrStart.length + mid.length →
         ¬ occursAt gitattrEnd content i))

def aTomlName : Str := "a.toml".data

/-- A config referencing a font that is not in `_shared/fonts/`. -/
def cexCfg : Str := "url = \"app/static/f.ttf\"".data

/-- Concrete world for the C1 counterexample: one theme, one referenced font,
empty shared font store. -/
def cexWorld : World :=
  { configs := [(aTomlName, cexCfg)], sharedApp := "x = 1".data,
    pyprojectTmpl := "p".data, snowflakeTmpl := "s".data, sharedFonts := [] }

def cexTheme : Theme := mkTheme aTomlName

def emptyDir : ThemeDir := { texts := [], fonts := [] }

instance occursAtDecidable (pat s : Str) (i : Nat) : Decidable (occursAt pat s i) :=
  inferInstanceAs (Decidable (pat <+: s.drop i))

-- ---------------------------------------------------------------------------
-- Theorems
-- ---------------------------------------------------------------------------

theorem isPrefixOfIff {l1 l2 : Str} : l1.isPrefixOf l2 = true ↔ l1 <+: l2 :=
  List.isPrefixOf_iff_prefix

theorem lookupFile_writeFile_self {α : Type} (fs : List (Str × α)) (p : Str) (c : α) :
    lookupFile (writeFile fs p c) p = some c := by
  induction fs with
  | nil => simp [writeFile, lookupFile]
  | cons hd tl ih =>
    obtain ⟨q, d⟩ := hd
    by_cases h : q = p
    · simp [writeFile, h, lookupFile]
    · simp [writeFile, h, lookupFile, ih]

theorem lookupFile_writeFile_ne {α : Type} (fs : List (Str × α)) (p q : Str) (c : α)
    (h : q ≠ p) : lookupFile (writeFile fs p c) q = lookupFile fs q := by
  induction fs with
  | nil => simp [writeFile, lookupFile, Ne.symm h]
  | cons hd tl ih =>
    obtain ⟨r, d⟩ := hd
    by_cases hr : r = p
    · subst hr
      simp [writeFile, lookupFile, h, Ne.symm h]
    · simp [writeFile, hr, lookupFile, ih]

theorem isPrefixOf_append_of {pat x : Str} (y : Str) (h : pat.isPrefixOf x = true) :
    pat.isPrefixOf (x ++ y) = true := by
  rw [isPrefixOfIff] at h ⊢
  exact h.trans (List.prefix_append x y)

theorem occursB_of_isPrefixOf {pat s : Str} (h : pat.isPrefixOf s = true) :
    occursB pat s = true := by
  cases s with
  | nil =>
    have : pat = [] := by
      cases pat with
      | nil => rfl
      | cons c cs => simp [List.isPrefixOf] at h
    simp [occursB, this, List.isEmpty]
  | cons c rest => simp [occursB, h]

theorem occursB_append_right {pat : Str} (x : Str) {y : Str} (h : occursB pat y = true) :
    occursB pat (x ++ y) = true := by
  induction x with
  | nil => simpa using h
  | cons c cs ih => simp [occursB, ih]

/-- C7: `cmd_new` is guarded: when `_configs/<name>.toml` exists it exits
with status 1 and changes nothing; otherwise it creates exactly that file
with the scaffold text determined by the name (a `[server]` section enabling
static serving and a `[theme]` section with `base = "dark"`), modifying no
other config file. -/
theorem cmd_new_guarded_scaffold (cfgs : List (Str × Str)) (name : Str) :
    ((lookupFile cfgs (name ++ tomlExt)).isSome →
      (cmd_new cfgs name).exitOne = true ∧ (cmd_new cfgs name).configs = cfgs) ∧
    (lookupFile cfgs (name ++ tomlExt) = none →
      (cmd_new cfgs name).exitOne = false ∧
      lookupFile (cmd_new cfgs name).configs (name ++ tomlExt) = some (scaffoldOf name) ∧
      (∀ p, p ≠ name ++ tomlExt →
        lookupFile (cmd_new cfgs name).configs p = lookupFile cfgs p) ∧
      occursB serverSectionLit (scaffoldOf name) = true ∧
      occursB themeSectionLit (scaffoldOf name) = true) := by
  constructor
  · intro h
    simp [cmd_new, h]
  · intro h
    have hns : ¬ (lookupFile cfgs (name ++ tomlExt)).isSome := by simp [h]
    refine ⟨by simp [cmd_new, hns], by simp [cmd_new, hns, lookupFile_writeFile_self], ?_, ?_, ?_⟩
    · intro p hp
      simp [cmd_new, hns, lookupFile_writeFile_ne _ _ _ _ hp]
    · rw [scaffoldOf, List.append_assoc]
      exact occursB_of_isPrefixOf (isPrefixOf_append_of _ (by decide))
    · rw [scaffoldOf]
      exact occursB_append_right _ (by decide)

theorem cmd_new_guarded_scaffold_witness :
    lookupFile ([] : List (Str × Str)) ("neon".data ++ tomlExt) = none ∧
    (cmd_new ([] : List (Str × Str)) ("neon".data)).exitOne = false ∧
    lookupFile (cmd_new ([] : List (Str × Str)) ("neon".data)).configs ("neon".data ++ tomlExt) =
      some (scaffoldOf ("neon".data)) := by
  refine ⟨by decide, ?_, ?_⟩
  · exact ((cmd_new_guarded_scaffold ([] : List (Str × Str)) ("neon".data)).2 (by decide)).1
  · exact ((cmd_new_guarded_scaffold ([] : List (Str × Str)) ("neon".data)).2 (by decide)).2.1

theorem splitOnChar_of_not_mem (sep : Char) (a : Str) (ha : sep ∉ a) :
    splitOnChar sep a = [a] := by
  induction a with
  | nil => simp [splitOnChar]
  | cons c cs ih =>
    have hc : ¬ c = sep := fun h => ha (by simp [h])
    have ih2 := ih (fun h => ha (by simp [h]))
    simp [splitOnChar, hc, ih2]

theorem splitOnChar_append_sep (sep : Char) (a b : Str) (ha : sep ∉ a) :
    splitOnChar sep (a ++ sep :: b) = a :: splitOnChar sep b := by
  induction a with
  | nil => simp [splitOnChar]
  | cons c cs ih =>
    have hc : ¬ c = sep := fun h => ha (by simp [h])
    have ih2 := ih (fun h => ha (by simp [h]))
    simp [splitOnChar, hc, ih2]

theorem splitOnChar_joinChar (sep : Char) (ws : List Str) (hne : ws ≠ [])
    (h : ∀ w ∈ ws, sep ∉ w) :
    splitOnChar sep (joinChar sep ws) = ws := by
  induction ws with
  | nil => exact absurd rfl hne
  | cons w rest ih =>
    cases rest with
    | nil => simpa [joinChar] using splitOnChar_of_not_mem sep w (h w (by simp))
    | cons w2 rest2 =>
      have h1 : sep ∉ w := h w (by simp)
      have h2 : ∀ x ∈ w2 :: rest2, sep ∉ x := fun x hx => h x (by simp [hx])
      have ihx := ih (by simp) h2
      simp only [joinChar]
      rw [splitOnChar_append_sep sep w _ h1, ihx]

/-- C10: `slug_to_title` capitalizes the hyphen-separated words of a slug and
joins them with single spaces; the override maps `"github"` to `"GitHub"`,
and `"solarized-light"` maps to `"Solarized Light"`. -/
theorem slug_to_title_spec :
    (∀ ws : List Str, ws ≠ [] → (∀ w ∈ ws, '-' ∉ w) →
      joinChar '-' ws ≠ githubSlug →
      slug_to_title (joinChar '-' ws) = joinChar ' ' (ws.map pyCapitalize)) ∧
    slug_to_title ("solarized-light".data) = ("Solarized Light".data) ∧
    slug_to_title githubSlug = githubTitle := by
  refine ⟨?_, by decide, by decide⟩
  intro ws hne hdash hslug
  rw [slug_to_title, if_neg hslug, splitOnChar_joinChar '-' ws hne hdash]

theorem slug_to_title_spec_witness :
    slug_to_title (joinChar '-' ["ab".data, "cd".data]) =
      joinChar ' ' (["ab".data, "cd".data].map pyCapitalize) :=
  slug_to_title_spec.1 ["ab".data, "cd".data] (by decide) (by decide) (by decide)

/-- C9: the orphan list of `cmd_sync` contains no directory whose name starts
with an underscore and none equal to a discovered theme slug; in particular
`_shared`, `_configs` and `_templates` are never offered for removal, and
whatever the user answers, only orphans are removed. -/
theorem sync_orphans_safe (rootDirNames configNames : List Str) (answer : Str) :
    (∀ d ∈ sync_orphans rootDirNames configNames,
      isUnderscoreName d = false ∧ ∀ t ∈ discover_themes configNames, d ≠ t.slug) ∧
    (∀ d ∈ sync_removed answer rootDirNames configNames,
      d ∈ sync_orphans rootDirNames configNames) ∧
    sharedDirName ∉ sync_orphans rootDirNames configNames ∧
    configsDirName ∉ sync_orphans rootDirNames configNames ∧
    templatesDirName ∉ sync_orphans rootDirNames configNames := by
  have hmain : ∀ d ∈ sync_orphans rootDirNames configNames,
      isUnderscoreName d = false ∧ ∀ t ∈ discover_themes configNames, d ≠ t.slug := by
    intro d hd
    rw [sync_orphans, List.mem_filter] at hd
    obtain ⟨-, hp⟩ := hd
    rw [Bool.and_eq_true, Bool.not_eq_true', Bool.not_eq_true'] at hp
    obtain ⟨h1, h2⟩ := hp
    refine ⟨h1, ?_⟩
    intro t ht heq
    have : d ∈ (discover_themes configNames).map Theme.slug :=
      List.mem_map.mpr ⟨t, ht, heq.symm⟩
    rw [decide_eq_false_iff_not] at h2
    exact h2 this
  refine ⟨hmain, ?_, ?_, ?_, ?_⟩
  · intro d hd
    rw [sync_removed] at hd
    by_cases hy : pyLower (pyStrip answer) = yLit
    · rwa [if_pos hy] at hd
    · rw [if_neg hy] at hd
      exact absurd hd (List.not_mem_nil d)
  · intro hmem
    have := (hmain _ hmem).1
    exact absurd this (by decide)
  · intro hmem
    have := (hmain _ hmem).1
    exact absurd this (by decide)
  · intro hmem
    have := (hmain _ hmem).1
    exact absurd this (by decide)

theorem sync_orphans_safe_witness :
    sharedDirName ∉ sync_orphans [sharedDirName] [] :=
  (sync_orphans_safe [sharedDirName] [] ("y".data)).2.2.1

theorem strLeB_trans : ∀ a b c : Str, strLeB a b = true → strLeB b c = true →
    strLeB a c = true := by
  intro a b c hab hbc
  rw [strLeB, decide_eq_true_eq] at hab hbc ⊢
  exact le_trans hab hbc

theorem strLeB_total : ∀ a b : Str, (strLeB a b || strLeB b a) = true := by
  intro a b
  rw [Bool.or_eq_true, strLeB, strLeB, decide_eq_true_eq, decide_eq_true_eq]
  exact le_total a b

/-- C2: `discover_themes` yields themes exactly for the `*.toml` config
files (slug = stem of the file name, title = `slug_to_title` of the slug),
one per file, in sorted order of the config file names; other names
contribute nothing. -/
theorem discover_themes_spec (configNames : List Str) :
    (∀ t, t ∈ discover_themes configNames ↔
      ∃ n, n ∈ configNames ∧ matchesTomlGlob n = true ∧ t = mkTheme n) ∧
    (discover_themes configNames).Perm
      ((configNames.filter matchesTomlGlob).map mkTheme) ∧
    (∃ ns, ns.Perm (configNames.filter matchesTomlGlob) ∧
      List.Pairwise (fun a b => strLeB a b = true) ns ∧
      discover_themes configNames = ns.map mkTheme) ∧
    (∀ n, (mkTheme n).slug = pyStem n ∧ (mkTheme n).title = slug_to_title (pyStem n)) := by
  have hperm : ((configNames.filter matchesTomlGlob).mergeSort strLeB).Perm
      (configNames.filter matchesTomlGlob) :=
    List.mergeSort_perm _ _
  refine ⟨?_, hperm.map mkTheme, ?_, fun n => ⟨rfl, rfl⟩⟩
  · intro t
    rw [discover_themes, List.mem_map]
    constructor
    · rintro ⟨n, hn, rfl⟩
      have hn2 := hperm.mem_iff.mp hn
      rw [List.mem_filter] at hn2
      exact ⟨n, hn2.1, hn2.2, rfl⟩
    · rintro ⟨n, hn, hglob, rfl⟩
      refine ⟨n, ?_, rfl⟩
      exact hperm.mem_iff.mpr (List.mem_filter.mpr ⟨hn, hglob⟩)
  · refine ⟨(configNames.filter matchesTomlGlob).mergeSort strLeB, hperm, ?_, rfl⟩
    exact List.sorted_mergeSort strLeB_trans strLeB_total _

theorem discover_themes_spec_witness :
    mkTheme aTomlName ∈ discover_themes [aTomlName] :=
  ((discover_themes_spec [aTomlName]).1 _).mpr ⟨aTomlName, by decide, by decide, rfl⟩

theorem replaceAllF_stable (pat rep : Str) : ∀ (n m : Nat) (s : Str),
    s.length ≤ n → s.length ≤ m → replaceAllF n pat rep s = replaceAllF m pat rep s := by
  intro n
  induction n with
  | zero =>
    intro m s hn hm
    have hs : s = [] := List.length_eq_zero.mp (Nat.le_zero.mp hn)
    subst hs
    cases m <;> simp [replaceAllF]
  | succ n ih =>
    intro m s hn hm
    cases s with
    | nil => cases m <;> simp [replaceAllF]
    | cons c rest =>
      cases m with
      | zero => simp at hm
      | succ m2 =>
        simp only [List.length_cons, Nat.add_le_add_iff_right] at hn hm
        simp only [replaceAllF]
        by_cases hp : pat ≠ [] ∧ pat.isPrefixOf (c :: rest) = true
        · rw [if_pos hp, if_pos hp]
          congr 1
          have hd : (rest.drop (pat.length - 1)).length ≤ rest.length := by
            rw [List.length_drop]
            omega
          exact ih m2 _ (le_trans hd hn) (le_trans hd hm)
        · rw [if_neg hp, if_neg hp]
          congr 1
          exact ih m2 rest hn hm


theorem replaceAllF_of_not_occursB (pat rep : Str) : ∀ (n : Nat) (s : Str),
    occursB pat s = false → replaceAllF n pat rep s = s := by
  intro n
  induction n with
  | zero => intro s h; rfl
  | succ n ih =>
    intro s h
    cases s with
    | nil => rfl
    | cons c rest =>
      rw [occursB, Bool.or_eq_false_iff] at h
      simp only [replaceAllF]
      rw [if_neg ?hneg]
      case hneg =>
        rintro ⟨-, hp⟩
        rw [h.1] at hp
        exact Bool.false_ne_true hp
      rw [ih rest h.2]

theorem replaceAll_of_not_occursB {pat rep s : Str} (h : occursB pat s = false) :
    replaceAll pat rep s = s :=
  replaceAllF_of_not_occursB pat rep s.length s h

theorem placeholderOf_ne_nil (k : Str) : placeholderOf k ≠ [] := by
  have h : placeholderOf k = '\x7b' :: (('\x7b' :: []) ++ k ++ doubleClose) := rfl
  rw [h]
  exact List.cons_ne_nil _ _

theorem replaceAll_append_pat (pat rep : Str) (hpat : pat ≠ []) : ∀ (a b : Str),
    (∀ i, i < a.length → ¬ occursAt pat (a ++ pat ++ b) i) →
    replaceAll pat rep (a ++ pat ++ b) = a ++ rep ++ replaceAll pat rep b := by
  intro a
  induction a with
  | nil =>
    intro b _
    obtain ⟨p, ps, rfl⟩ := List.exists_cons_of_ne_nil hpat
    unfold replaceAll
    have hshape : ([] : Str) ++ (p :: ps) ++ b = p :: (ps ++ b) := by simp
    rw [hshape]
    simp only [List.length_cons, replaceAllF]
    rw [if_pos ?hpos]
    case hpos =>
      refine ⟨hpat, ?_⟩
      rw [isPrefixOfIff]
      show (p :: ps) <+: (p :: ps) ++ b
      exact List.prefix_append _ _
    have hdrop : List.drop (ps.length + 1 - 1) (ps ++ b) = b := by
      simp only [Nat.add_sub_cancel]
      exact List.drop_left ps b
    rw [hdrop]
    have hstab : replaceAllF (ps ++ b).length (p :: ps) rep b =
        replaceAllF b.length (p :: ps) rep b :=
      replaceAllF_stable _ _ _ _ _ (by simp) le_rfl
    rw [hstab]
    simp [replaceAll]
  | cons x a2 ih =>
    intro b ha
    have hpre : ¬ pat.isPrefixOf ((x :: a2) ++ pat ++ b) = true := by
      intro h
      refine ha 0 (by simp) ?_
      show pat <+: ((x :: a2) ++ pat ++ b).drop 0
      rw [List.drop_zero]
      exact isPrefixOfIff.mp h
    unfold replaceAll
    have hshape : (x :: a2) ++ pat ++ b = x :: (a2 ++ pat ++ b) := by simp
    rw [hshape]
    simp only [List.length_cons, replaceAllF]
    rw [if_neg ?hneg]
    case hneg =>
      rintro ⟨-, hp⟩
      exact hpre (by rw [hshape]; exact hp)
    have ha2 : ∀ i, i < a2.length → ¬ occursAt pat (a2 ++ pat ++ b) i := by
      intro i hi hocc
      refine ha (i + 1) (by simp; omega) ?_
      show pat <+: ((x :: a2) ++ pat ++ b).drop (i + 1)
      rw [hshape]
      exact hocc
    have hrec := ih b ha2
    rw [replaceAll] at hrec
    rw [hrec]
    simp [replaceAll]

/-- C3: `expected_from_template` substitutes placeholders: a template with no
placeholder of the mapping is returned unchanged; for a key of the mapping,
the leftmost `{{key}}` occurrence is replaced by the value and substitution
continues in the remainder; and the mapping is processed sequentially, one
`str.replace` per key. -/
theorem expected_from_template_spec (tmpl : Str) (m : List (Str × Str)) :
    ((∀ kv ∈ m, occursB (placeholderOf kv.1) tmpl = false) →
      expected_from_template tmpl m = tmpl) ∧
    (∀ k v a b,
      (∀ i, i < a.length → ¬ occursAt (placeholderOf k) (a ++ placeholderOf k ++ b) i) →
      expected_from_template (a ++ placeholderOf k ++ b) [(k, v)] =
        a ++ v ++ replaceAll (placeholderOf k) v b) ∧
    (∀ kv rest, expected_from_template tmpl (kv :: rest) =
      expected_from_template (replaceAll (placeholderOf kv.1) kv.2 tmpl) rest) := by
  refine ⟨?_, ?_, fun kv rest => rfl⟩
  · induction m with
    | nil => intro h; rfl
    | cons kv rest ih =>
      intro h
      have h1 : replaceAll (placeholderOf kv.1) kv.2 tmpl = tmpl :=
        replaceAll_of_not_occursB (h kv (by simp))
      have h2 : expected_from_template tmpl (kv :: rest) =
          expected_from_template (replaceAll (placeholderOf kv.1) kv.2 tmpl) rest := rfl
      rw [h2, h1]
      exact ih (fun x hx => h x (by simp [hx]))
  · intro k v a b ha
    show replaceAll (placeholderOf k) v (a ++ placeholderOf k ++ b) = _
    exact replaceAll_append_pat _ v (placeholderOf_ne_nil k) a b ha

theorem expected_from_template_spec_witness :
    expected_from_template ("x ".data ++ placeholderOf ("t".data) ++ " y".data)
        [("t".data, "V".data)] =
      "x ".data ++ "V".data ++ replaceAll (placeholderOf ("t".data)) ("V".data) (" y".data) :=
  (expected_from_template_spec [] []).2.1 ("t".data) ("V".data) ("x ".data) (" y".data)
    (by decide)

theorem take_append_of_le_length (u v : Str) (n : Nat) (h : n ≤ u.length) :
    (u ++ v).take n = u.take n := by
  rw [List.take_append_eq_append_take, Nat.sub_eq_zero_of_le h, List.take_zero,
    List.append_nil]

theorem drop_append_of_le_length (u v : Str) (n : Nat) (h : n ≤ u.length) :
    (u ++ v).drop n = u.drop n ++ v := by
  rw [List.drop_append_eq_append_drop, Nat.sub_eq_zero_of_le h, List.drop_zero]

theorem prefix_append_iff_of_le (p u v : Str) (h : p.length ≤ u.length) :
    p <+: u ++ v ↔ p <+: u := by
  rw [List.prefix_iff_eq_take, List.prefix_iff_eq_take, take_append_of_le_length u v _ h]

theorem getElem?_eq_of_pre (p s : Str) (k : Nat) (h : p <+: s) (hk : k < p.length) :
    s[k]? = p[k]? := by
  rw [List.prefix_iff_eq_take] at h
  conv_rhs => rw [h]
  rw [List.getElem?_take, if_pos hk]

theorem mem_of_prefix_append_gt (p u : Str) (c : Char) (v : Str)
    (h : p <+: u ++ c :: v) (hgt : u.length < p.length) : c ∈ p := by
  have h1 : (u ++ c :: v)[u.length]? = p[u.length]? :=
    getElem?_eq_of_pre p (u ++ c :: v) u.length h hgt
  rw [List.getElem?_append_right le_rfl, Nat.sub_self, List.getElem?_cons_zero] at h1
  exact List.getElem?_mem h1.symm

theorem isPrefixOf_nl_eq (pat u b : Str) (hnl : nlc ∉ pat) :
    pat.isPrefixOf (u ++ nlc :: b) = pat.isPrefixOf u := by
  rw [Bool.eq_iff_iff, isPrefixOfIff, isPrefixOfIff]
  constructor
  · intro h
    by_cases hlen : pat.length ≤ u.length
    · exact (prefix_append_iff_of_le pat u (nlc :: b) hlen).mp h
    · exact absurd (mem_of_prefix_append_gt pat u nlc b h (by omega)) hnl
  · intro h
    exact h.trans (List.prefix_append u (nlc :: b))

theorem replaceAllF_append_nl (pat rep : Str) (hnl : nlc ∉ pat) : ∀ (n : Nat) (a b : Str),
    a.length + b.length + 1 ≤ n →
    replaceAllF n pat rep (a ++ nlc :: b) =
      replaceAllF n pat rep a ++ nlc :: replaceAllF n pat rep b := by
  intro n
  induction n with
  | zero => intro a b ha; omega
  | succ n ih =>
    intro a b ha
    cases a with
    | nil =>
      simp only [List.nil_append, replaceAllF]
      rw [if_neg ?hneg]
      case hneg =>
        rintro ⟨hne, hp⟩
        rw [show (nlc :: b) = ([] : Str) ++ nlc :: b from rfl, isPrefixOf_nl_eq pat [] b hnl] at hp
        obtain ⟨q, qs, rfl⟩ := List.exists_cons_of_ne_nil hne
        simp [List.isPrefixOf] at hp
      congr 1
      exact replaceAllF_stable pat rep n (n + 1) b (by simp at ha; omega) (by simp at ha; omega)
    | cons x a2 =>
      have e1 : (x :: a2) ++ nlc :: b = x :: (a2 ++ nlc :: b) := List.cons_append x a2 (nlc :: b)
      rw [e1]
      simp only [replaceAllF]
      rw [show List.isPrefixOf pat (x :: (a2 ++ nlc :: b)) = List.isPrefixOf pat (x :: a2) from
        by rw [← e1]; exact isPrefixOf_nl_eq pat (x :: a2) b hnl]
      by_cases hcond : pat ≠ [] ∧ pat.isPrefixOf (x :: a2) = true
      · rw [if_pos hcond, if_pos hcond]
        have hlen : pat.length ≤ a2.length + 1 :=
          (isPrefixOfIff.mp hcond.2).length_le
        rw [drop_append_of_le_length a2 (nlc :: b) (pat.length - 1) (by omega)]
        rw [ih (a2.drop (pat.length - 1)) b (by rw [List.length_drop]; simp at ha; omega)]
        have hb : replaceAllF n pat rep b = replaceAllF (n + 1) pat rep b :=
          replaceAllF_stable pat rep n (n + 1) b (by simp at ha; omega) (by simp at ha; omega)
        have ha2 : replaceAllF n pat rep (a2.drop (pat.length - 1)) =
            replaceAllF (n + 1) pat rep (a2.drop (pat.length - 1)) := by
          apply replaceAllF_stable
          · rw [List.length_drop]
            simp at ha
            omega
          · rw [List.length_drop]
            simp at ha
            omega
        rw [hb, ha2]
        simp
      · rw [if_neg hcond, if_neg hcond]
        rw [ih a2 b (by simp at ha; omega)]
        have hb : replaceAllF n pat rep b = replaceAllF (n + 1) pat rep b :=
          replaceAllF_stable pat rep n (n + 1) b (by simp at ha; omega) (by simp at ha; omega)
        have ha2 : replaceAllF n pat rep a2 = replaceAllF (n + 1) pat rep a2 :=
          replaceAllF_stable pat rep n (n + 1) a2 (by simp at ha; omega) (by simp at ha; omega)
        rw [hb, ha2]
        simp

theorem replaceAll_append_nl (pat rep : Str) (hnl : nlc ∉ pat) (a b : Str) :
    replaceAll pat rep (a ++ nlc :: b) = replaceAll pat rep a ++ nlc :: replaceAll pat rep b := by
  have hlen : (a ++ nlc :: b).length = a.length + b.length + 1 := by simp; omega
  rw [replaceAll, hlen,
    replaceAllF_append_nl pat rep hnl (a.length + b.length + 1) a b le_rfl]
  rw [replaceAll, replaceAll]
  rw [replaceAllF_stable pat rep (a.length + b.length + 1) a.length a (by omega) le_rfl,
    replaceAllF_stable pat rep (a.length + b.length + 1) b.length b (by omega) le_rfl]

theorem splitOnChar_ne_nil (sep : Char) (s : Str) : splitOnChar sep s ≠ [] := by
  cases s with
  | nil => simp [splitOnChar]
  | cons c rest =>
    by_cases h : c = sep
    · simp [splitOnChar, h]
    · simp only [splitOnChar, if_neg h]
      cases splitOnChar sep rest <;> simp

theorem joinChar_cons_cons (sep : Char) (c : Char) (l : Str) (ls : List Str) :
    joinChar sep ((c :: l) :: ls) = c :: joinChar sep (l :: ls) := by
  cases ls <;> simp [joinChar]

theorem joinChar_nil_cons (sep : Char) (ls : List Str) (h : ls ≠ []) :
    joinChar sep ([] :: ls) = sep :: joinChar sep ls := by
  cases ls with
  | nil => exact absurd rfl h
  | cons l ls2 => simp [joinChar]

theorem joinNl_splitNl (s : Str) : joinNl (splitNl s) = s := by
  induction s with
  | nil => rfl
  | cons c rest ih =>
    by_cases h : c = nlc
    · rw [splitNl, splitOnChar, if_pos h]
      rw [joinNl, joinChar_nil_cons nlc _ (splitOnChar_ne_nil nlc rest)]
      rw [show joinChar nlc (splitOnChar nlc rest) = rest from ih, h]
    · rw [splitNl, splitOnChar, if_neg h]
      rcases hsp : splitOnChar nlc rest with _ | ⟨l, ls⟩
      · exact absurd hsp (splitOnChar_ne_nil nlc rest)
      · rw [joinNl, joinChar_cons_cons]
        have h3 : splitNl rest = l :: ls := hsp
        have h2 : joinChar nlc (l :: ls) = rest := by
          rw [← h3]
          exact ih
        rw [h2]

theorem splitNl_join_append (ls : List Str) (R : Str) (hne : ls ≠ [])
    (h : ∀ l ∈ ls, nlc ∉ l) :
    splitNl (joinNl ls ++ nlc :: R) = ls ++ splitNl R := by
  induction ls with
  | nil => exact absurd rfl hne
  | cons l ls2 ih =>
    cases ls2 with
    | nil =>
      rw [show joinNl [l] = l from rfl]
      rw [show splitNl (l ++ nlc :: R) = splitOnChar nlc (l ++ nlc :: R) from rfl]
      rw [splitOnChar_append_sep nlc l R (h l (by simp))]
      rfl
    | cons l2 ls3 =>
      have hjoin : joinNl (l :: l2 :: ls3) = l ++ nlc :: joinNl (l2 :: ls3) := rfl
      rw [hjoin]
      have hassoc : (l ++ nlc :: joinNl (l2 :: ls3)) ++ nlc :: R =
          l ++ nlc :: (joinNl (l2 :: ls3) ++ nlc :: R) := by simp
      rw [hassoc]
      rw [show splitNl (l ++ nlc :: (joinNl (l2 :: ls3) ++ nlc :: R)) =
        splitOnChar nlc (l ++ nlc :: (joinNl (l2 :: ls3) ++ nlc :: R)) from rfl]
      rw [splitOnChar_append_sep nlc l _ (h l (by simp))]
      rw [show splitOnChar nlc (joinNl (l2 :: ls3) ++ nlc :: R) =
        splitNl (joinNl (l2 :: ls3) ++ nlc :: R) from rfl]
      rw [ih (by simp) (fun x hx => h x (by simp [hx]))]
      rfl

theorem replaceAll_nil (pat rep : Str) : replaceAll pat rep [] = [] := rfl

theorem replaceAll_joinNl_append (pat rep : Str) (hnl : nlc ∉ pat) :
    ∀ (ls : List Str) (R : Str), (∀ l ∈ ls, occursB pat l = false) →
    replaceAll pat rep (joinNl ls ++ nlc :: R) =
      joinNl ls ++ nlc :: replaceAll pat rep R := by
  intro ls
  induction ls with
  | nil =>
    intro R _
    rw [show joinNl [] = [] from rfl]
    simp only [List.nil_append]
    have := replaceAll_append_nl pat rep hnl [] R
    simpa [replaceAll_nil] using this
  | cons l ls2 ih =>
    intro R h
    cases ls2 with
    | nil =>
      rw [show joinNl [l] = l from rfl]
      rw [replaceAll_append_nl pat rep hnl l R]
      rw [replaceAll_of_not_occursB (h l (by simp))]
    | cons l2 ls3 =>
      rw [show joinNl (l :: l2 :: ls3) = l ++ nlc :: joinNl (l2 :: ls3) from rfl]
      have hassoc : (l ++ nlc :: joinNl (l2 :: ls3)) ++ nlc :: R =
          l ++ nlc :: (joinNl (l2 :: ls3) ++ nlc :: R) := by simp
      rw [hassoc]
      rw [replaceAll_append_nl pat rep hnl l (joinNl (l2 :: ls3) ++ nlc :: R)]
      rw [replaceAll_of_not_occursB (h l (by simp))]
      rw [ih R (fun x hx => h x (by simp [hx]))]
      simp

theorem findIdx?_append_cons {α : Type} (p : α → Bool) :
    ∀ (xs : List α) (y : α) (z : List α) (i : Nat),
    (∀ x ∈ xs, p x = false) → p y = true →
    List.findIdx? p (xs ++ y :: z) i = some (i + xs.length) := by
  intro xs
  induction xs with
  | nil =>
    intro y z i _ hy
    simp [List.findIdx?_cons, hy]
  | cons x xs2 ih =>
    intro y z i h hy
    rw [List.cons_append, List.findIdx?_cons, if_neg (by rw [h x (by simp)]; simp)]
    rw [ih y z (i + 1) (fun a ha => h a (by simp [ha])) hy]
    congr 1
    simp
    omega

theorem expected_app_eq_some (source title : Str) (k : Nat)
    (hk : docstringEnd (splitNl (replaceAll titlePh title source)) = some k) :
    expected_app source title =
      joinNl ((splitNl (replaceAll titlePh title source)).take k) ++ nlc ::
        (managedHeaderPy ++ joinNl ((splitNl (replaceAll titlePh title source)).drop k)) := by
  simp only [expected_app, hk]

theorem expected_app_eq_none (source title : Str)
    (hk : docstringEnd (splitNl (replaceAll titlePh title source)) = none) :
    expected_app source title = managedHeaderPy ++ replaceAll titlePh title source := by
  simp only [expected_app, hk]

/-- C4: `expected_app` returns the shared source with every `{{title}}`
occurrence replaced by the title and the managed header line inserted
immediately after the last line of the module docstring when the source has
one (here: a leading `"""` line, docstring lines free of `"""`, a closing
`"""` line, then the rest of the module), or prepended to the whole text when
the first line opens no docstring. -/
theorem expected_app_spec :
    (∀ (mid : List Str) (restStr title : Str),
      (∀ l ∈ mid, nlc ∉ l ∧ occursB tripleQuote l = false ∧ occursB titlePh l = false) →
      expected_app (joinNl (tripleQuote :: (mid ++ [tripleQuote])) ++ nlc :: restStr) title =
        joinNl (tripleQuote :: (mid ++ [tripleQuote])) ++ nlc ::
          (managedHeaderPy ++ replaceAll titlePh title restStr)) ∧
    (∀ (l0 restStr title : Str), nlc ∉ l0 → occursB titlePh l0 = false →
      tripleQuote.isPrefixOf l0 = false →
      expected_app (l0 ++ nlc :: restStr) title =
        managedHeaderPy ++ (l0 ++ nlc :: replaceAll titlePh title restStr)) := by
  constructor
  · intro mid restStr title h
    have hnlph : nlc ∉ titlePh := by decide
    have hdocne : (tripleQuote :: (mid ++ [tripleQuote]) : List Str) ≠ [] := by simp
    have hoccdoc : ∀ l ∈ tripleQuote :: (mid ++ [tripleQuote]), occursB titlePh l = false := by
      intro l hl
      rcases List.mem_cons.mp hl with rfl | hl2
      · decide
      rcases List.mem_append.mp hl2 with hm | hlast
      · exact (h l hm).2.2
      · rw [List.mem_singleton.mp hlast]
        decide
    have hnldoc : ∀ l ∈ tripleQuote :: (mid ++ [tripleQuote]), nlc ∉ l := by
      intro l hl
      rcases List.mem_cons.mp hl with rfl | hl2
      · decide
      rcases List.mem_append.mp hl2 with hm | hlast
      · exact (h l hm).1
      · rw [List.mem_singleton.mp hlast]
        decide
    have hbody : replaceAll titlePh title
        (joinNl (tripleQuote :: (mid ++ [tripleQuote])) ++ nlc :: restStr) =
        joinNl (tripleQuote :: (mid ++ [tripleQuote])) ++ nlc ::
          replaceAll titlePh title restStr :=
      replaceAll_joinNl_append titlePh title hnlph _ restStr hoccdoc
    have hsplit : splitNl (joinNl (tripleQuote :: (mid ++ [tripleQuote])) ++ nlc ::
        replaceAll titlePh title restStr) =
        (tripleQuote :: (mid ++ [tripleQuote])) ++
          splitNl (replaceAll titlePh title restStr) :=
      splitNl_join_append _ _ hdocne hnldoc
    have hshape : (tripleQuote :: (mid ++ [tripleQuote])) ++
        splitNl (replaceAll titlePh title restStr) =
        tripleQuote :: (mid ++ tripleQuote ::
          splitNl (replaceAll titlePh title restStr)) := by simp
    have hfind : List.findIdx? (occursB tripleQuote)
        (mid ++ tripleQuote :: splitNl (replaceAll titlePh title restStr)) 0 =
        some mid.length := by
      have := findIdx?_append_cons (occursB tripleQuote) mid tripleQuote
        (splitNl (replaceAll titlePh title restStr)) 0
        (fun l hl => (h l hl).2.1) (by decide)
      simpa using this
    have hds : docstringEnd ((tripleQuote :: (mid ++ [tripleQuote])) ++
        splitNl (replaceAll titlePh title restStr)) = some (mid.length + 2) := by
      rw [hshape]
      rw [docstringEnd]
      rw [if_pos (by decide)]
      rw [if_neg (by decide)]
      rw [hfind]
    rw [expected_app_eq_some _ title (mid.length + 2) (by rw [hbody, hsplit]; exact hds)]
    rw [hbody, hsplit]
    have hlen : (tripleQuote :: (mid ++ [tripleQuote])).length = mid.length + 2 := by
      simp
    rw [← hlen, List.take_left, List.drop_left]
    rw [show joinNl (splitNl (replaceAll titlePh title restStr)) =
      replaceAll titlePh title restStr from joinNl_splitNl _]
  · intro l0 restStr title hnl0 hocc0 hpre0
    have hbody : replaceAll titlePh title (l0 ++ nlc :: restStr) =
        l0 ++ nlc :: replaceAll titlePh title restStr := by
      rw [replaceAll_append_nl titlePh title (by decide) l0 restStr]
      rw [replaceAll_of_not_occursB hocc0]
    have hsplit : splitNl (l0 ++ nlc :: replaceAll titlePh title restStr) =
        l0 :: splitNl (replaceAll titlePh title restStr) :=
      splitOnChar_append_sep nlc l0 _ hnl0
    have hds : docstringEnd (l0 :: splitNl (replaceAll titlePh title restStr)) = none := by
      rw [docstringEnd]
      rw [if_neg (by simp [hpre0])]
    rw [expected_app_eq_none _ title (by rw [hbody, hsplit]; exact hds)]
    rw [hbody]

theorem expected_app_spec_witness :
    expected_app (joinNl (tripleQuote :: (["doc".data] ++ [tripleQuote])) ++ nlc :: "abc".data)
        ("T".data) =
      joinNl (tripleQuote :: (["doc".data] ++ [tripleQuote])) ++ nlc ::
        (managedHeaderPy ++ replaceAll titlePh ("T".data) ("abc".data)) :=
  expected_app_spec.1 ["doc".data] ("abc".data) ("T".data) (by decide)

theorem copyFonts_texts (w : World) (slug : Str) : ∀ (fs : List Str) (acc : ThemeDir × List Str),
    (copyFonts w slug fs acc).1.texts = acc.1.texts := by
  intro fs
  induction fs with
  | nil => intro acc; rfl
  | cons g fs2 ih =>
    intro acc
    rw [copyFonts]
    cases lookupFile w.sharedFonts g <;> simp [ih]

theorem copyFonts_fonts (w : World) (slug : Str) : ∀ (fs : List Str) (acc : ThemeDir × List Str)
    (f : Str), lookupFile (copyFonts w slug fs acc).1.fonts f =
      if f ∈ fs ∧ (lookupFile w.sharedFonts f).isSome then lookupFile w.sharedFonts f
      else lookupFile acc.1.fonts f := by
  intro fs
  induction fs with
  | nil =>
    intro acc f
    simp [copyFonts]
  | cons g fs2 ih =>
    intro acc f
    rw [copyFonts]
    rcases hg : lookupFile w.sharedFonts g with _ | b
    · rw [ih]
      by_cases hfg : f = g
      · subst hfg
        simp [hg]
      · simp [List.mem_cons, hfg]
    · rw [ih]
      by_cases hfg : f = g
      · subst hfg
        simp only [hg, Option.isSome_some, and_true, List.mem_cons, true_or, if_pos]
        by_cases hf2 : f ∈ fs2
        · simp [hf2]
        · simp [hf2, lookupFile_writeFile_self]
      · have hlk : lookupFile (writeFile acc.1.fonts g b) f = lookupFile acc.1.fonts f :=
          lookupFile_writeFile_ne acc.1.fonts g f b hfg
        simp [List.mem_cons, hfg, hlk]

theorem copyFonts_warns_mono (w : World) (slug : Str) : ∀ (fs : List Str)
    (acc : ThemeDir × List Str) (x : Str), x ∈ acc.2 → x ∈ (copyFonts w slug fs acc).2 := by
  intro fs
  induction fs with
  | nil => intro acc x hx; exact hx
  | cons g fs2 ih =>
    intro acc x hx
    rw [copyFonts]
    cases lookupFile w.sharedFonts g
    · exact ih _ x (by simp [hx])
    · exact ih _ x hx

theorem copyFonts_warn_mem (w : World) (slug : Str) : ∀ (fs : List Str)
    (acc : ThemeDir × List Str) (f : Str), f ∈ fs → lookupFile w.sharedFonts f = none →
    warnMsgOf slug f ∈ (copyFonts w slug fs acc).2 := by
  intro fs
  induction fs with
  | nil => intro acc f hf; simp at hf
  | cons g fs2 ih =>
    intro acc f hf hnone
    rw [copyFonts]
    rcases List.mem_cons.mp hf with rfl | hf2
    · rw [hnone]
      exact copyFonts_warns_mono w slug fs2 _ _ (by simp)
    · cases lookupFile w.sharedFonts g <;> exact ih _ f hf2 hnone

theorem sync_theme_spec (w : World) (t : Theme) (d : ThemeDir) (cfgsrc : Str)
    (hc : lookupFile w.configs (t.slug ++ tomlExt) = some cfgsrc) :
    ∃ d2 warns, sync_theme w t d = some (d2, warns) ∧
      lookupFile d2.texts cfgRelPath = some (expected_config_of t.slug cfgsrc) ∧
      lookupFile d2.texts appRelPath = some (expected_app w.sharedApp t.title) ∧
      lookupFile d2.texts pyprojRelPath =
        some (expected_from_template w.pyprojectTmpl (replacements2 t)) ∧
      lookupFile d2.texts snowRelPath =
        some (expected_from_template w.snowflakeTmpl (replacements3 t)) ∧
      (∀ f, f ∈ discover_fonts cfgsrc →
        (∀ b, lookupFile w.sharedFonts f = some b → lookupFile d2.fonts f = some b) ∧
        (lookupFile w.sharedFonts f = none →
          lookupFile d2.fonts f = lookupFile d.fonts f ∧ warnMsgOf t.slug f ∈ warns)) := by
  rw [sync_theme, hc]
  refine ⟨_, _, rfl, ?_, ?_, ?_, ?_, ?_⟩
  · rw [copyFonts_texts]
    rw [lookupFile_writeFile_ne _ _ _ _ (by decide)]
    rw [lookupFile_writeFile_ne _ _ _ _ (by decide)]
    rw [lookupFile_writeFile_ne _ _ _ _ (by decide)]
    rw [lookupFile_writeFile_self]
  · rw [copyFonts_texts]
    rw [lookupFile_writeFile_ne _ _ _ _ (by decide)]
    rw [lookupFile_writeFile_ne _ _ _ _ (by decide)]
    rw [lookupFile_writeFile_self]
  · rw [copyFonts_texts]
    rw [lookupFile_writeFile_ne _ _ _ _ (by decide)]
    rw [lookupFile_writeFile_self]
  · rw [copyFonts_texts]
    rw [lookupFile_writeFile_self]
  · intro f hf
    constructor
    · intro b hb
      rw [copyFonts_fonts, if_pos ⟨hf, by rw [hb]; rfl⟩, hb]
    · intro hnone
      constructor
      · rw [copyFonts_fonts, if_neg (by rw [hnone]; simp)]
      · exact copyFonts_warn_mem w t.slug _ _ f hf hnone

/-- C5: during `sync_theme`, every font name captured from the config text by
the `url = "app/static/<name>"` scan is copied from `_shared/fonts/` into the
theme's `static/` store when present there; a referenced font absent from
`_shared/fonts/` yields the stderr warning and is skipped (the `static/`
store is unchanged at that name), and the sync still completes, writing all
four generated files. -/
theorem sync_theme_font_handling (w : World) (t : Theme) (d : ThemeDir) (cfgsrc : Str)
    (hc : lookupFile w.configs (t.slug ++ tomlExt) = some cfgsrc) :
    ∃ d2 warns, sync_theme w t d = some (d2, warns) ∧
      (∀ f, f ∈ discover_fonts cfgsrc →
        (∀ b, lookupFile w.sharedFonts f = some b → lookupFile d2.fonts f = some b) ∧
        (lookupFile w.sharedFonts f = none →
          lookupFile d2.fonts f = lookupFile d.fonts f ∧ warnMsgOf t.slug f ∈ warns)) ∧
      lookupFile d2.texts cfgRelPath = some (expected_config_of t.slug cfgsrc) ∧
      lookupFile d2.texts appRelPath = some (expected_app w.sharedApp t.title) ∧
      lookupFile d2.texts pyprojRelPath =
        some (expected_from_template w.pyprojectTmpl (replacements2 t)) ∧
      lookupFile d2.texts snowRelPath =
        some (expected_from_template w.snowflakeTmpl (replacements3 t)) := by
  obtain ⟨d2, warns, hsync, h1, h2, h3, h4, hf⟩ := sync_theme_spec w t d cfgsrc hc
  exact ⟨d2, warns, hsync, hf, h1, h2, h3, h4⟩

theorem sync_theme_font_handling_witness :
    lookupFile cexWorld.configs (cexTheme.slug ++ tomlExt) = some cexCfg ∧
    ∃ d2 warns, sync_theme cexWorld cexTheme emptyDir = some (d2, warns) ∧
      (∀ f, f ∈ discover_fonts cexCfg →
        (∀ b, lookupFile cexWorld.sharedFonts f = some b → lookupFile d2.fonts f = some b) ∧
        (lookupFile cexWorld.sharedFonts f = none →
          lookupFile d2.fonts f = lookupFile emptyDir.fonts f ∧
          warnMsgOf cexTheme.slug f ∈ warns)) ∧
      lookupFile d2.texts cfgRelPath = some (expected_config_of cexTheme.slug cexCfg) ∧
      lookupFile d2.texts appRelPath = some (expected_app cexWorld.sharedApp cexTheme.title) ∧
      lookupFile d2.texts pyprojRelPath =
        some (expected_from_template cexWorld.pyprojectTmpl (replacements2 cexTheme)) ∧
      lookupFile d2.texts snowRelPath =
        some (expected_from_template cexWorld.snowflakeTmpl (replacements3 cexTheme)) :=
  ⟨by decide, sync_theme_font_handling cexWorld cexTheme emptyDir cexCfg (by decide)⟩

theorem checkFile_clean (e p : Str) : checkFile (some e) e p = ([], []) := by
  simp [checkFile]

theorem checkFonts_clean (w : World) (d : ThemeDir) (slug : Str) : ∀ (fs : List Str),
    (∀ f ∈ fs, ∃ b, lookupFile w.sharedFonts f = some b ∧ lookupFile d.fonts f = some b) →
    checkFonts w d slug fs = ([], []) := by
  intro fs
  induction fs with
  | nil => intro _; rfl
  | cons g fs2 ih =>
    intro h
    obtain ⟨b, hsb, hdb⟩ := h g (by simp)
    rw [checkFonts, ih (fun f hf => h f (by simp [hf])), hdb, hsb]
    simp

/-- C1 (amended): immediately after `sync_theme` for a theme whose config
file exists (with the shared app file, templates, and config unchanged in
between), each of the four generated files exists and equals its expected
content, so the `cmd_check` body for that theme reports none of the four
files as missing or drifted — only font reports remain possible; when every
referenced font exists in `_shared/fonts/`, the theme is reported fully
clean. -/
theorem sync_establishes_check (w : World) (t : Theme) (d : ThemeDir) (cfgsrc : Str)
    (hc : lookupFile w.configs (t.slug ++ tomlExt) = some cfgsrc) :
    ∃ d2 warns, sync_theme w t d = some (d2, warns) ∧
      lookupFile d2.texts cfgRelPath = some (expected_config_of t.slug cfgsrc) ∧
      lookupFile d2.texts appRelPath = some (expected_app w.sharedApp t.title) ∧
      lookupFile d2.texts pyprojRelPath =
        some (expected_from_template w.pyprojectTmpl (replacements2 t)) ∧
      lookupFile d2.texts snowRelPath =
        some (expected_from_template w.snowflakeTmpl (replacements3 t)) ∧
      check_theme w d2 t = some (checkFonts w d2 t.slug (discover_fonts cfgsrc)) ∧
      ((∀ f, f ∈ discover_fonts cfgsrc → (lookupFile w.sharedFonts f).isSome) →
        check_theme w d2 t = some ([], [])) := by
  obtain ⟨d2, warns, hsync, h1, h2, h3, h4, hf⟩ := sync_theme_spec w t d cfgsrc hc
  refine ⟨d2, warns, hsync, h1, h2, h3, h4, ?_, ?_⟩
  · simp only [check_theme, hc, h1, h2, h3, h4, checkFile_clean]
    simp
  · intro hall
    have hfc : checkFonts w d2 t.slug (discover_fonts cfgsrc) = ([], []) := by
      apply checkFonts_clean
      intro f hfm
      obtain ⟨b, hb⟩ := Option.isSome_iff_exists.mp (hall f hfm)
      exact ⟨b, hb, (hf f hfm).1 b hb⟩
    simp only [check_theme, hc, h1, h2, h3, h4, checkFile_clean, hfc]
    simp

/-- C1 as stated is false: for a theme whose config references a font absent
from `_shared/fonts/`, the check run immediately after a sync still reports
the theme (the font file is missing), so `cmd_check` does not report the
theme as neither missing nor drifted. -/
theorem sync_establishes_check_counterexample :
    (sync_theme cexWorld cexTheme emptyDir).bind
        (fun r => check_theme cexWorld r.1 cexTheme) =
      some ([cexTheme.slug ++ slashStatic ++ "f.ttf".data], []) ∧
    ([cexTheme.slug ++ slashStatic ++ "f.ttf".data] : List Str) ≠ [] := by
  constructor
  · decide
  · simp

theorem sync_establishes_check_witness :
    lookupFile cexWorld.configs (cexTheme.slug ++ tomlExt) = some cexCfg ∧
    ∃ d2 warns, sync_theme cexWorld cexTheme emptyDir = some (d2, warns) ∧
      lookupFile d2.texts cfgRelPath = some (expected_config_of cexTheme.slug cexCfg) ∧
      lookupFile d2.texts appRelPath = some (expected_app cexWorld.sharedApp cexTheme.title) ∧
      lookupFile d2.texts pyprojRelPath =
        some (expected_from_template cexWorld.pyprojectTmpl (replacements2 cexTheme)) ∧
      lookupFile d2.texts snowRelPath =
        some (expected_from_template cexWorld.snowflakeTmpl (replacements3 cexTheme)) ∧
      check_theme cexWorld d2 cexTheme =
        some (checkFonts cexWorld d2 cexTheme.slug (discover_fonts cexCfg)) ∧
      ((∀ f, f ∈ discover_fonts cexCfg → (lookupFile cexWorld.sharedFonts f).isSome) →
        check_theme cexWorld d2 cexTheme = some ([], [])) :=
  ⟨by decide, sync_establishes_check cexWorld cexTheme emptyDir cexCfg (by decide)⟩

theorem checkFile_ne_iff (actual : Option Str) (e p : Str) :
    ((checkFile actual e p).1 ≠ [] ∨ (checkFile actual e p).2 ≠ []) ↔ actual ≠ some e := by
  cases actual with
  | none => simp [checkFile]
  | some c =>
    by_cases h : c = e
    · subst h
      simp [checkFile]
    · simp [checkFile, h]

theorem checkFonts_ne_iff (w : World) (d : ThemeDir) (slug : Str) : ∀ (fs : List Str),
    ((checkFonts w d slug fs).1 ≠ [] ∨ (checkFonts w d slug fs).2 ≠ []) ↔
      ∃ f ∈ fs, lookupFile d.fonts f = none ∨
        ∃ sb db, lookupFile w.sharedFonts f = some sb ∧ lookupFile d.fonts f = some db ∧
          sb ≠ db := by
  intro fs
  induction fs with
  | nil => simp [checkFonts]
  | cons g fs2 ih =>
    rw [checkFonts]
    rcases hd : lookupFile d.fonts g with _ | db
    · simp only []
      constructor
      · intro _
        exact ⟨g, by simp, Or.inl hd⟩
      · intro _
        left
        simp
    · rcases hs : lookupFile w.sharedFonts g with _ | sb
      · simp only []
        rw [ih]
        constructor
        · rintro ⟨f, hf, hbad⟩
          exact ⟨f, by simp [hf], hbad⟩
        · rintro ⟨f, hf, hbad⟩
          rcases List.mem_cons.mp hf with rfl | hm
          · rcases hbad with h1 | ⟨sb, db2, hsb, -, -⟩
            · rw [hd] at h1
              exact absurd h1 (by simp)
            · rw [hs] at hsb
              exact absurd hsb (by simp)
          · exact ⟨f, hm, hbad⟩
      · simp only []
        by_cases hsd : sb = db
        · rw [if_pos hsd]
          rw [ih]
          constructor
          · rintro ⟨f, hf, hbad⟩
            exact ⟨f, by simp [hf], hbad⟩
          · rintro ⟨f, hf, hbad⟩
            rcases List.mem_cons.mp hf with rfl | hm
            · rcases hbad with h1 | ⟨sb2, db2, hsb2, hdb2, hne2⟩
              · rw [hd] at h1
                exact absurd h1 (by simp)
              · rw [hs, Option.some_inj] at hsb2
                rw [hd, Option.some_inj] at hdb2
                exact (hne2 (by rw [← hsb2, ← hdb2]; exact hsd)).elim
            · exact ⟨f, hm, hbad⟩
        · rw [if_neg hsd]
          constructor
          · intro _
            exact ⟨g, by simp, Or.inr ⟨sb, db, hs, hd, hsd⟩⟩
          · intro _
            right
            simp

theorem check_theme_bad_iff (w : World) (d : ThemeDir) (t : Theme) (cfgsrc : Str)
    (hc : lookupFile w.configs (t.slug ++ tomlExt) = some cfgsrc) :
    ∀ m dr, check_theme w d t = some (m, dr) →
    ((m ≠ [] ∨ dr ≠ []) ↔ ThemeBad w d t cfgsrc) := by
  intro m dr h
  simp only [check_theme, hc, Option.some_inj, Prod.mk.injEq] at h
  obtain ⟨hm, hdr⟩ := h
  subst hm
  subst hdr
  have hsplit : ∀ (A1 A2 A3 A4 A5 B1 B2 B3 B4 B5 : List Str),
      (A1 ++ A2 ++ A3 ++ A4 ++ A5 ≠ [] ∨ B1 ++ B2 ++ B3 ++ B4 ++ B5 ≠ []) ↔
      ((A1 ≠ [] ∨ B1 ≠ []) ∨ (A2 ≠ [] ∨ B2 ≠ []) ∨ (A3 ≠ [] ∨ B3 ≠ []) ∨
        (A4 ≠ [] ∨ B4 ≠ []) ∨ (A5 ≠ [] ∨ B5 ≠ [])) := by
    intro A1 A2 A3 A4 A5 B1 B2 B3 B4 B5
    simp only [ne_eq, List.append_eq_nil]
    tauto
  rw [hsplit]
  rw [checkFile_ne_iff, checkFile_ne_iff, checkFile_ne_iff, checkFile_ne_iff,
    checkFonts_ne_iff]
  exact Iff.rfl

theorem check_all_bad_iff (w : World) (dirs : Str → ThemeDir) : ∀ (ts : List Theme),
    (∀ t ∈ ts, ∃ c, lookupFile w.configs (t.slug ++ tomlExt) = some c) →
    ∃ m dr, check_all w dirs ts = some (m, dr) ∧
      ((m ≠ [] ∨ dr ≠ []) ↔ ∃ t ∈ ts, ∃ c,
        lookupFile w.configs (t.slug ++ tomlExt) = some c ∧
        ThemeBad w (dirs t.slug) t c) := by
  intro ts
  induction ts with
  | nil => exact fun _ => ⟨[], [], rfl, by simp⟩
  | cons t ts2 ih =>
    intro h
    obtain ⟨c, hcfg⟩ := h t (by simp)
    obtain ⟨m2, dr2, hall2, hiff2⟩ := ih (fun x hx => h x (by simp [hx]))
    obtain ⟨⟨m1, dr1⟩, hct1⟩ : ∃ r, check_theme w (dirs t.slug) t = some r := by
      rcases hcteq : check_theme w (dirs t.slug) t with _ | r
      · simp only [check_theme, hcfg] at hcteq
        exact absurd hcteq (by simp)
      · exact ⟨r, rfl⟩
    have hiff1 := check_theme_bad_iff w (dirs t.slug) t c hcfg m1 dr1 hct1
    refine ⟨m1 ++ m2, dr1 ++ dr2, ?_, ?_⟩
    · simp only [check_all, hct1, hall2]
    · have hsplit : (m1 ++ m2 ≠ [] ∨ dr1 ++ dr2 ≠ []) ↔
          ((m1 ≠ [] ∨ dr1 ≠ []) ∨ (m2 ≠ [] ∨ dr2 ≠ [])) := by
        simp only [ne_eq, List.append_eq_nil]
        tauto
      rw [hsplit, hiff1, hiff2]
      constructor
      · rintro (hbad | ⟨t2, ht2, hrest⟩)
        · exact ⟨t, by simp, c, hcfg, hbad⟩
        · exact ⟨t2, by simp [ht2], hrest⟩
      · rintro ⟨t2, ht2, c2, hc2, hbad⟩
        rcases List.mem_cons.mp ht2 with rfl | hm
        · left
          rw [hcfg, Option.some_inj] at hc2
          rw [hc2]
          exact hbad
        · right
          exact ⟨t2, hm, c2, hc2, hbad⟩

/-- C6: given that every discovered theme's config file is readable (which
holds whenever discovery and the loop see the same `_configs/` store, except
for the degenerate `.toml` file name), `cmd_check` signals exit status 1
exactly when some discovered theme has a generated file missing or drifted,
or a referenced font missing from `static/` or differing from an existing
shared font; otherwise both report lists are empty and it completes
normally. -/
theorem cmd_check_exit_iff (w : World) (dirs : Str → ThemeDir)
    (hc : ∀ t ∈ discover_themes (w.configs.map Prod.fst),
      ∃ c, lookupFile w.configs (t.slug ++ tomlExt) = some c) :
    ∃ m dr, cmd_check w dirs = some (m, dr) ∧
      (cmd_check_exitOne w dirs = some true ↔
        ∃ t ∈ discover_themes (w.configs.map Prod.fst), ∃ c,
          lookupFile w.configs (t.slug ++ tomlExt) = some c ∧
          ThemeBad w (dirs t.slug) t c) ∧
      (cmd_check_exitOne w dirs = some false ↔ m = [] ∧ dr = []) := by
  obtain ⟨m, dr, hall, hiff⟩ := check_all_bad_iff w dirs _ hc
  have hcmd : cmd_check w dirs = some (m, dr) := hall
  refine ⟨m, dr, hcmd, ?_, ?_⟩
  · have hexit : cmd_check_exitOne w dirs = some (!(m.isEmpty && dr.isEmpty)) := by
      rw [cmd_check_exitOne, hcmd]
      rfl
    rw [hexit, Option.some_inj, ← hiff]
    rcases m with _ | ⟨x, xs⟩ <;> rcases dr with _ | ⟨y, ys⟩ <;> simp
  · have hexit : cmd_check_exitOne w dirs = some (!(m.isEmpty && dr.isEmpty)) := by
      rw [cmd_check_exitOne, hcmd]
      rfl
    rw [hexit, Option.some_inj]
    rcases m with _ | ⟨x, xs⟩ <;> rcases dr with _ | ⟨y, ys⟩ <;> simp

theorem cmd_check_exit_iff_witness :
    (∀ t ∈ discover_themes (cexWorld.configs.map Prod.fst),
      ∃ c, lookupFile cexWorld.configs (t.slug ++ tomlExt) = some c) ∧
    ∃ m dr, cmd_check cexWorld (fun _ => emptyDir) = some (m, dr) := by
  have hdt : discover_themes (cexWorld.configs.map Prod.fst) = [mkTheme aTomlName] := by
    rw [show cexWorld.configs.map Prod.fst = [aTomlName] from rfl]
    rw [discover_themes]
    rw [show List.filter matchesTomlGlob [aTomlName] = [aTomlName] from by decide]
    rw [List.mergeSort_singleton]
    rfl
  have hc : ∀ t ∈ discover_themes (cexWorld.configs.map Prod.fst),
      ∃ c, lookupFile cexWorld.configs (t.slug ++ tomlExt) = some c := by
    intro t ht
    rw [hdt] at ht
    rcases List.mem_singleton.mp ht with rfl
    exact ⟨cexCfg, by decide⟩
  obtain ⟨m, dr, hcmd, -, -⟩ := cmd_check_exit_iff cexWorld (fun _ => emptyDir) hc
  exact ⟨hc, m, dr, hcmd⟩

theorem occursAt_iff_take (pat s : Str) (i : Nat) :
    occursAt pat s i ↔ pat = (s.drop i).take pat.length := by
  rw [occursAt, List.prefix_iff_eq_take]

theorem occursAt_cons_succ (pat : Str) (c : Char) (rest : Str) (j : Nat) :
    occursAt pat (c :: rest) (j + 1) ↔ occursAt pat rest j := by
  rw [occursAt, occursAt, List.drop_succ_cons]

theorem occursAt_shift (pat a z : Str) (j : Nat) :
    occursAt pat (a ++ z) (a.length + j) ↔ occursAt pat z j := by
  rw [occursAt, occursAt, List.drop_append]

theorem occursAt_mono (pat x y : Str) (i : Nat) (hxy : x <+: y)
    (h : occursAt pat x i) : occursAt pat y i := by
  obtain ⟨t, rfl⟩ := hxy
  rw [occursAt] at h ⊢
  by_cases hi : i ≤ x.length
  · rw [drop_append_of_le_length x t i hi]
    exact h.trans (List.prefix_append _ _)
  · rw [List.drop_eq_nil_of_le (by omega)] at h
    rw [List.prefix_nil.mp h]
    exact List.nil_prefix

theorem occursAt_append_left (pat x y : Str) (i : Nat) (h : i + pat.length ≤ x.length) :
    occursAt pat (x ++ y) i ↔ occursAt pat x i := by
  rw [occursAt_iff_take, occursAt_iff_take]
  rw [drop_append_of_le_length x y i (by omega)]
  rw [take_append_of_le_length (x.drop i) y pat.length (by rw [List.length_drop]; omega)]

theorem occursAt_getElem (pat s : Str) (i k : Nat) (h : occursAt pat s i)
    (hk : k < pat.length) : s[i + k]? = pat[k]? := by
  rw [occursAt] at h
  have := getElem?_eq_of_pre pat (s.drop i) k h hk
  rw [List.getElem?_drop] at this
  exact this

theorem take_common₂ (x s y z : Str) (n : Nat) (h : n ≤ x.length + s.length) :
    (x ++ (s ++ y)).take n = (x ++ (s ++ z)).take n := by
  have hx : ∀ (w : Str), (x ++ (s ++ w)).take n = x.take n ++ (s ++ w).take (n - x.length) :=
    fun w => List.take_append_eq_append_take
  rw [hx y, hx z, take_append_of_le_length s y (n - x.length) (by omega),
    take_append_of_le_length s z (n - x.length) (by omega)]

theorem findSub_eq_some_iff (pat : Str) : ∀ (s : Str) (i : Nat),
    findSub pat s = some i ↔
      (occursAt pat s i ∧ ∀ j, j < i → ¬ occursAt pat s j) := by
  intro s
  induction s with
  | nil =>
    intro i
    rw [findSub]
    by_cases hp : pat = []
    · subst hp
      rw [if_pos rfl]
      constructor
      · intro h
        obtain rfl : i = 0 := by simpa using h.symm
        exact ⟨ List.nil_prefix, fun j hj => absurd hj (by omega)⟩
      · rintro ⟨-, hmin⟩
        by_cases hi : i = 0
        · rw [hi]
        · exact absurd List.nil_prefix (hmin 0 (by omega))
    · rw [if_neg hp]
      constructor
      · intro h
        exact absurd h (by simp)
      · rintro ⟨hocc, -⟩
        rw [occursAt, List.drop_nil] at hocc
        exact absurd (List.prefix_nil.mp hocc) hp
  | cons c rest ih =>
    intro i
    rw [findSub]
    by_cases hp : pat.isPrefixOf (c :: rest) = true
    · rw [if_pos hp]
      constructor
      · intro h
        obtain rfl : i = 0 := by simpa using h.symm
        exact ⟨isPrefixOfIff.mp hp, fun j hj => absurd hj (by omega)⟩
      · rintro ⟨hocc, hmin⟩
        by_cases hi : i = 0
        · rw [hi]
        · exact absurd (isPrefixOfIff.mp hp) (hmin 0 (by omega))
    · rw [if_neg hp]
      constructor
      · intro h
        obtain ⟨i2, hfs, rfl⟩ : ∃ i2, findSub pat rest = some i2 ∧ i = i2 + 1 := by
          rcases hf : findSub pat rest with _ | i2
          · rw [hf] at h
            simp at h
          · rw [hf] at h
            simp at h
            exact ⟨i2, rfl, h.symm⟩
        obtain ⟨hocc2, hmin2⟩ := (ih i2).mp hfs
        refine ⟨(occursAt_cons_succ pat c rest i2).mpr hocc2, ?_⟩
        intro j hj
        cases j with
        | zero =>
          intro hocc0
          rw [occursAt, List.drop_zero] at hocc0
          exact hp (isPrefixOfIff.mpr hocc0)
        | succ j2 =>
          intro hoccj
          exact hmin2 j2 (by omega) ((occursAt_cons_succ pat c rest j2).mp hoccj)
      · rintro ⟨hocc, hmin⟩
        cases i with
        | zero =>
          rw [occursAt, List.drop_zero] at hocc
          exact absurd (isPrefixOfIff.mpr hocc) hp
        | succ i2 =>
          have hrec := (ih i2).mpr ⟨(occursAt_cons_succ pat c rest i2).mp hocc,
            fun j hj hj2 => hmin (j + 1) (by omega)
              ((occursAt_cons_succ pat c rest j).mpr hj2)⟩
          rw [hrec]
          rfl

theorem findSub_eq_none_iff (pat : Str) : ∀ (s : Str),
    findSub pat s = none ↔ ∀ i, ¬ occursAt pat s i := by
  intro s
  induction s with
  | nil =>
    rw [findSub]
    by_cases hp : pat = []
    · rw [if_pos hp]
      constructor
      · intro h
        exact absurd h (by simp)
      · intro h
        exact absurd (by rw [hp, occursAt]; exact List.nil_prefix : occursAt pat [] 0) (h 0)
    · rw [if_neg hp]
      constructor
      · intro _ i hocc
        rw [occursAt, List.drop_nil] at hocc
        exact hp (List.prefix_nil.mp hocc)
      · intro _
        rfl
  | cons c rest ih =>
    rw [findSub]
    by_cases hp : pat.isPrefixOf (c :: rest) = true
    · rw [if_pos hp]
      constructor
      · intro h
        exact absurd h (by simp)
      · intro h
        exact absurd (by rw [occursAt, List.drop_zero]; exact isPrefixOfIff.mp hp)
          (h 0)
    · rw [if_neg hp]
      constructor
      · intro h i
        have hrest : findSub pat rest = none := by
          rcases hf : findSub pat rest with _ | i2
          · rfl
          · rw [hf] at h
            simp at h
        cases i with
        | zero =>
          intro hocc0
          rw [occursAt, List.drop_zero] at hocc0
          exact hp (isPrefixOfIff.mpr hocc0)
        | succ j =>
          intro hoccj
          exact (ih.mp hrest) j ((occursAt_cons_succ pat c rest j).mp hoccj)
      · intro h
        have hrest : ∀ j, ¬ occursAt pat rest j :=
          fun j hj => h (j + 1) ((occursAt_cons_succ pat c rest j).mpr hj)
        rw [ih.mpr hrest]
        rfl

theorem occursAt_congr_take (pat s t : Str) (i : Nat)
    (hst : (s.drop i).take pat.length = (t.drop i).take pat.length) :
    occursAt pat s i ↔ occursAt pat t i := by
  rw [occursAt_iff_take, occursAt_iff_take, hst]

theorem newSection_decomp :
    newSection = gitattrStart ++ newSection.drop gitattrStart.length := by decide

theorem newSection_endPos_drop : newSection.drop endPosN = gitattrEnd := by decide

theorem newSection_endPos_len : endPosN + gitattrEnd.length = newSection.length := by decide

theorem findSub_end_newSection : findSub gitattrEnd newSection = some endPosN := by decide

theorem no_end_early (B : Str) : ∀ i, i < endPosN →
    ¬ occursAt gitattrEnd (newSection ++ B) i := by
  intro i hi hocc
  have hmin := ((findSub_eq_some_iff gitattrEnd newSection endPosN).mp
    findSub_end_newSection).2
  have hin : occursAt gitattrEnd newSection i := by
    rw [← occursAt_append_left gitattrEnd newSection B i ?_]
    · exact hocc
    · have h1 := newSection_endPos_len
      omega
  exact hmin i hi hin

theorem update_fix (A B : Str)
    (hA : ∀ i, i < A.length → ¬ occursAt gitattrStart (A ++ (newSection ++ B)) i)
    (hE : ∀ i, i < A.length + endPosN → ¬ occursAt gitattrEnd (A ++ (newSection ++ B)) i) :
    update_gitattributes (some (A ++ (newSection ++ B))) = some (A ++ (newSection ++ B)) := by
  have h1 : findSub gitattrStart (A ++ (newSection ++ B)) = some A.length := by
    rw [findSub_eq_some_iff]
    refine ⟨?_, hA⟩
    have hocc0 : occursAt gitattrStart (newSection ++ B) 0 := by
      rw [occursAt, List.drop_zero]
      exact (isPrefixOfIff.mp (by decide)).trans
        (List.prefix_append newSection B)
    have := (occursAt_shift gitattrStart A (newSection ++ B) 0).mpr hocc0
    simpa using this
  have h2 : findSub gitattrEnd (A ++ (newSection ++ B)) = some (A.length + endPosN) := by
    rw [findSub_eq_some_iff]
    refine ⟨?_, hE⟩
    rw [occursAt_shift gitattrEnd A (newSection ++ B) endPosN]
    rw [occursAt]
    rw [drop_append_of_le_length newSection B endPosN (by have := newSection_endPos_len; omega)]
    rw [newSection_endPos_drop]
    exact List.prefix_append gitattrEnd B
  simp only [update_gitattributes, h1, h2]
  have htake : (A ++ (newSection ++ B)).take A.length = A := List.take_left A (newSection ++ B)
  have hdrop : (A ++ (newSection ++ B)).drop (A.length + endPosN + gitattrEnd.length) = B := by
    rw [show A.length + endPosN + gitattrEnd.length =
      A.length + (endPosN + gitattrEnd.length) from by omega]
    rw [List.drop_append]
    rw [newSection_endPos_len]
    exact List.drop_left newSection B
  rw [htake, hdrop, List.append_assoc]

theorem pyRstrip_leading (content : Str) : pyRstrip content <+: content := by
  rw [pyRstrip]
  have hsuf : content.reverse.dropWhile isPySpaceC <:+ content.reverse :=
    List.dropWhile_suffix _
  exact List.reverse_suffix.mp (by rw [List.reverse_reverse]; exact hsuf)

theorem no_marker_after_rstrip (pat content B : Str)
    (hnlpat : nlc ∉ pat) (hnone : findSub pat content = none) :
    ∀ i, i < (pyRstrip content).length + 2 →
      ¬ occursAt pat (pyRstrip content ++ nlc :: nlc :: B) i := by
  intro i hi hocc
  have hne : pat ≠ [] := by
    rintro rfl
    rw [findSub_eq_none_iff] at hnone
    exact hnone 0 (by rw [occursAt]; exact List.nil_prefix)
  by_cases hcase : i + pat.length ≤ (pyRstrip content).length
  · have hocc2 : occursAt pat (pyRstrip content) i := by
      rw [← occursAt_append_left pat (pyRstrip content) (nlc :: nlc :: B) i hcase]
      exact hocc
    have hocc3 : occursAt pat content i :=
      occursAt_mono pat _ content i (pyRstrip_leading content) hocc2
    rw [findSub_eq_none_iff] at hnone
    exact hnone i hocc3
  · by_cases hile : i ≤ (pyRstrip content).length
    · have hklt : (pyRstrip content).length - i < pat.length := by omega
      have h1 := occursAt_getElem pat _ i ((pyRstrip content).length - i) hocc hklt
      rw [show i + ((pyRstrip content).length - i) = (pyRstrip content).length from by omega]
        at h1
      have h2 : (pyRstrip content ++ nlc :: nlc :: B)[(pyRstrip content).length]? =
          some nlc := by
        rw [List.getElem?_append_right le_rfl, Nat.sub_self]
        rfl
      rw [h2] at h1
      exact hnlpat (List.getElem?_mem h1.symm)
    · have h1 := occursAt_getElem pat _ i 0 hocc (List.length_pos.mpr hne)
      rw [Nat.add_zero] at h1
      have h2 : (pyRstrip content ++ nlc :: nlc :: B)[(pyRstrip content).length + 1]? =
          some nlc := by
        rw [List.getElem?_append_right (by omega)]
        rw [show (pyRstrip content).length + 1 - (pyRstrip content).length = 1 from by omega]
        rw [List.getElem?_cons_succ, List.getElem?_cons_zero]
      rw [show i = (pyRstrip content).length + 1 from by omega, h2] at h1
      exact hnlpat (List.getElem?_mem h1.symm)

/-- C8 (amended): `update_gitattributes` is idempotent on well-formed prior
states: file absent, content with no occurrence of either marker string, or
content with exactly one managed section whose shown BEGIN/END occurrences
are the first occurrences of the markers.  The managed section is replaced
in place. -/
theorem update_gitattributes_idem (prior : Option Str) (h : GAWellFormed prior) :
    updateTwice prior = update_gitattributes prior := by
  rcases h with hnone | ⟨content, rfl, hcase⟩
  · subst hnone
    have h1 : update_gitattributes none = some (newSection ++ nlStr) := rfl
    simp only [updateTwice, h1]
    have hA : ∀ i, i < ([] : Str).length →
        ¬ occursAt gitattrStart ([] ++ (newSection ++ nlStr)) i := by
      intro i hi
      simp at hi
    have hE : ∀ i, i < ([] : Str).length + endPosN →
        ¬ occursAt gitattrEnd ([] ++ (newSection ++ nlStr)) i := by
      intro i hi hocc
      exact no_end_early nlStr i (by simpa using hi) (by simpa using hocc)
    have hfx := update_fix [] nlStr hA hE
    simpa using hfx
  · rcases hcase with ⟨hsn, hen⟩ | ⟨pre, mid, post, hdecomp, hpre, hmid⟩
    · have hupd : update_gitattributes (some content) =
          some (pyRstrip content ++ nlStr ++ nlStr ++ newSection ++ nlStr) := by
        simp only [update_gitattributes, hsn]
      simp only [updateTwice, hupd]
      have hshape : pyRstrip content ++ nlStr ++ nlStr ++ newSection ++ nlStr =
          (pyRstrip content ++ nlStr ++ nlStr) ++ (newSection ++ nlStr) := by
        simp [List.append_assoc]
      rw [hshape]
      have hlenA : (pyRstrip content ++ nlStr ++ nlStr).length =
          (pyRstrip content).length + 2 := by
        simp [nlStr]
      have hshape2 : (pyRstrip content ++ nlStr ++ nlStr) ++ (newSection ++ nlStr) =
          pyRstrip content ++ nlc :: nlc :: (newSection ++ nlStr) := by
        simp [nlStr]
      apply update_fix
      · intro i hi hocc
        rw [hshape2] at hocc
        exact no_marker_after_rstrip gitattrStart content (newSection ++ nlStr)
          (by decide) hsn i (by omega) hocc
      · intro i hi hocc
        by_cases hiA : i < (pyRstrip content ++ nlStr ++ nlStr).length
        · rw [hshape2] at hocc
          exact no_marker_after_rstrip gitattrEnd content (newSection ++ nlStr)
            (by decide) hen i (by omega) hocc
        · rw [show i = (pyRstrip content ++ nlStr ++ nlStr).length +
            (i - (pyRstrip content ++ nlStr ++ nlStr).length) from by omega] at hocc
          have hocc2 := (occursAt_shift gitattrEnd (pyRstrip content ++ nlStr ++ nlStr)
            (newSection ++ nlStr) (i - (pyRstrip content ++ nlStr ++ nlStr).length)).mp hocc
          exact no_end_early nlStr _ (by omega) hocc2
    · have hdecomp2 : content = pre ++ (gitattrStart ++ (mid ++ (gitattrEnd ++ post))) := by
        rw [hdecomp]
        simp [List.append_assoc]
      have h1 : findSub gitattrStart content = some pre.length := by
        rw [findSub_eq_some_iff]
        refine ⟨?_, hpre⟩
        rw [hdecomp2, occursAt, List.drop_left pre _]
        exact List.prefix_append _ _
      have h2 : findSub gitattrEnd content =
          some (pre.length + gitattrStart.length + mid.length) := by
        rw [findSub_eq_some_iff]
        refine ⟨?_, hmid⟩
        rw [hdecomp2]
        rw [show pre.length + gitattrStart.length + mid.length =
          pre.length + (gitattrStart.length + mid.length) from by omega]
        rw [occursAt_shift, occursAt, List.drop_append, List.drop_left mid _]
        exact List.prefix_append _ _
      have hupd : update_gitattributes (some content) =
          some (pre ++ (newSection ++ post)) := by
        simp only [update_gitattributes, h1, h2]
        congr 1
        have htake : content.take pre.length = pre := by
          rw [hdecomp2]
          exact List.take_left pre _
        have hdrop : content.drop
            (pre.length + gitattrStart.length + mid.length + gitattrEnd.length) = post := by
          rw [hdecomp2]
          rw [show pre.length + gitattrStart.length + mid.length + gitattrEnd.length =
            pre.length + (gitattrStart.length + (mid.length + gitattrEnd.length)) from by omega]
          rw [List.drop_append, List.drop_append, List.drop_append]
          exact List.drop_left gitattrEnd post
        rw [htake, hdrop, List.append_assoc]
      simp only [updateTwice, hupd]
      apply update_fix
      · intro i hi hocc
        have hteq : ((pre ++ (newSection ++ post)).drop i).take gitattrStart.length =
            (content.drop i).take gitattrStart.length := by
          rw [hdecomp2]
          rw [drop_append_of_le_length pre (newSection ++ post) i (by omega),
            drop_append_of_le_length pre (gitattrStart ++ (mid ++ (gitattrEnd ++ post))) i
              (by omega)]
          conv_lhs => rw [newSection_decomp]
          rw [List.append_assoc gitattrStart (newSection.drop gitattrStart.length) post]
          exact take_common₂ (pre.drop i) gitattrStart _ _ gitattrStart.length (by omega)
        exact hpre i hi ((occursAt_congr_take _ _ _ i hteq).mp hocc)
      · intro i hi hocc
        by_cases hiA : i < pre.length
        · have hteq : ((pre ++ (newSection ++ post)).drop i).take gitattrEnd.length =
              (content.drop i).take gitattrEnd.length := by
            rw [hdecomp2]
            rw [drop_append_of_le_length pre (newSection ++ post) i (by omega),
              drop_append_of_le_length pre (gitattrStart ++ (mid ++ (gitattrEnd ++ post))) i
                (by omega)]
            conv_lhs => rw [newSection_decomp]
            rw [List.append_assoc gitattrStart (newSection.drop gitattrStart.length) post]
            refine take_common₂ (pre.drop i) gitattrStart _ _ gitattrEnd.length ?_
            have hle : gitattrEnd.length ≤ gitattrStart.length := by decide
            omega
          exact hmid i (by omega) ((occursAt_congr_take _ _ _ i hteq).mp hocc)
        · rw [show i = pre.length + (i - pre.length) from by omega] at hocc
          have hocc2 := (occursAt_shift gitattrEnd pre (newSection ++ post)
            (i - pre.length)).mp hocc
          exact no_end_early post _ (by omega) hocc2

theorem update_gitattributes_idem_witness :
    GAWellFormed none ∧ updateTwice none = update_gitattributes none :=
  ⟨Or.inl rfl, update_gitattributes_idem none (Or.inl rfl)⟩

/-- C8 as stated is false: a prior content consisting of a lone END marker
line contains no managed section (so it satisfies "at most one managed
section delimited by the BEGIN/END marker lines"), yet applying
`update_gitattributes` twice differs from applying it once — the second run
replaces from the first occurrence of BEGIN back to the stray END. -/
theorem update_gitattributes_idem_counterexample :
    atMostOneManagedSection (gitattrEnd ++ nlStr) ∧
    updateTwice (some (gitattrEnd ++ nlStr)) ≠
      update_gitattributes (some (gitattrEnd ++ nlStr)) := by
  refine ⟨⟨by decide, by decide⟩, by decide⟩
